import Mathlib

/-!
# Fault-tolerant ingest pipeline: a shallow embedding

The development follows the repository leaf-first:

* `normalize.js`  : `normalizeEvent`, `safeDate`, over a model of the JavaScript
  scalars, of `Number(...)`, of `new Date(...)` and of `toISOString()`;
* `fingerprint.js`: `fingerprint`, over SHA-256 (FIPS 180-4) on the UTF-8 bytes;
* `db.js`         : the two tables, as lists of rows with their AUTOINCREMENT counters;
* `routes.js`     : the `POST /ingest` and `GET /aggregates` handlers, as the
  sequence of SQL statements each one issues.

JavaScript numbers are IEEE doubles.  A finite double is a dyadic rational, kept
here exactly as `m / 2 ^ k` (`JsNum.fin m k`, canonical when `k = 0` or `m` is odd);
negative zero is identified with zero, which no operation of this program can tell
apart (both print as `0`, both are falsy, both bind as the integer 0).
-/

namespace FaultTolerance

/-! ## JavaScript scalars -/

/-- A JavaScript Number: `NaN`, an infinity, or the finite value `m / 2 ^ k`. -/
inductive JsNum where
  | nan
  | inf (neg : Bool)
  | fin (m : Int) (k : Nat)
  deriving DecidableEq, Repr

/-- The JSON scalars a field of the request body can hold (`undefined` stands for an
absent member). -/
inductive JsVal where
  | undefined
  | null
  | bool (b : Bool)
  | num (n : JsNum)
  | str (s : String)
  deriving DecidableEq, Repr

/-- The dyadic `m / 2 ^ k` with the common factors of two removed. -/
def normDyadic : Int → Nat → JsNum
  | m, 0 => .fin m 0
  | m, k + 1 => if m % 2 = 0 then normDyadic (m / 2) k else .fin m (k + 1)

/-- Rounding of `n / d` to the nearest integer, ties to even. -/
def roundHalfEven (n d : Nat) : Nat :=
  let f := n / d
  let r := n % d
  if 2 * r < d then f
  else if d < 2 * r then f + 1
  else if f % 2 = 0 then f else f + 1

/-- The position of the leading bit, `⌊log₂ n⌋` (0 for `n < 2`), by halving at most
`fuel` times. -/
def log2Fuel : Nat → Nat → Nat
  | 0, _ => 0
  | fuel + 1, n => if 2 ≤ n then log2Fuel fuel (n / 2) + 1 else 0

/-- The integer `⌊log₂ (p / q)⌋` for positive `p`, `q`. -/
def floorLog2 (p q : Nat) : Int :=
  let e0 : Int := (log2Fuel p p : Int) - (log2Fuel q q : Int)
  let atLeast : Bool :=
    if 0 ≤ e0 then decide (q * 2 ^ e0.toNat ≤ p) else decide (q ≤ p * 2 ^ (-e0).toNat)
  if atLeast then e0 else e0 - 1

/-- The double nearest to `± p / q` for positive `p`, `q` (round to nearest, ties to even;
binary64 has a 53-bit significand, least normal exponent -1022 and overflows at
`2 ^ 1024`). -/
def roundFraction (neg : Bool) (p q : Nat) : JsNum :=
  let e := floorLog2 p q
  let u : Int := max e (-1022) - 52
  let mant : Nat :=
    if 0 ≤ u then roundHalfEven p (q * 2 ^ u.toNat) else roundHalfEven (p * 2 ^ (-u).toNat) q
  let sgn : Int := if neg then -1 else 1
  if 0 ≤ u then
    if 2 ^ 1024 ≤ mant * 2 ^ u.toNat then .inf neg else .fin (sgn * (mant * 2 ^ u.toNat : Nat)) 0
  else normDyadic (sgn * (mant : Nat)) (-u).toNat

/-- The double nearest to `± p / q`, the fraction taken in lowest terms (zero for a zero
numerator). -/
def roundDouble (neg : Bool) (p q : Nat) : JsNum :=
  if p = 0 ∨ q = 0 then .fin 0 0
  else roundFraction neg (p / Nat.gcd p q) (q / Nat.gcd p q)

/-- The characters `StrWhiteSpaceChar` of ECMAScript: white space and line terminators. -/
def isStrWhiteSpace (c : Char) : Bool :=
  let n := c.toNat
  n = 9 || n = 10 || n = 11 || n = 12 || n = 13 || n = 32 || n = 160 || n = 0x1680 ||
  (0x2000 ≤ n && n ≤ 0x200A) || n = 0x2028 || n = 0x2029 || n = 0x202F || n = 0x205F ||
  n = 0x3000 || n = 0xFEFF

/-- The list with leading and trailing white space removed. -/
def trimWs (cs : List Char) : List Char :=
  ((cs.dropWhile isStrWhiteSpace).reverse.dropWhile isStrWhiteSpace).reverse

/-- The value of a digit character in a base up to 16, if it is one. -/
def digitValue (base : Nat) (c : Char) : Option Nat :=
  let n := c.toNat
  let v : Option Nat :=
    if 48 ≤ n ∧ n ≤ 57 then some (n - 48)
    else if 97 ≤ n ∧ n ≤ 102 then some (n - 87)
    else if 65 ≤ n ∧ n ≤ 70 then some (n - 55)
    else none
  match v with
  | some d => if d < base then some d else none
  | none => none

/-- The value of a non-empty string of digits in the given base. -/
def digitsValue (base : Nat) : List Char → Option Nat
  | [] => none
  | cs => cs.foldl (fun acc c =>
      match acc, digitValue base c with
      | some a, some d => some (base * a + d)
      | _, _ => none) (some 0)

/-- The production `SignedInteger`: digits with an optional sign. -/
def parseSignedInteger : List Char → Option Int
  | '+' :: ds => (digitsValue 10 ds).map Int.ofNat
  | '-' :: ds => (digitsValue 10 ds).map (fun n => - Int.ofNat n)
  | ds => (digitsValue 10 ds).map Int.ofNat

/-- The production `ExponentPart`, optional: the decimal exponent it denotes. -/
def parseExponentPart : List Char → Option Int
  | [] => some 0
  | c :: rest => if c = 'e' ∨ c = 'E' then parseSignedInteger rest else none

/-- The production `StrUnsignedDecimalLiteral` without `Infinity`: the pair `(s, e)` of a
literal whose value is `s * 10 ^ e`. -/
def parseUnsignedDecimal (cs : List Char) : Option (Nat × Int) :=
  let ip := cs.takeWhile Char.isDigit
  let rest := cs.dropWhile Char.isDigit
  match rest with
  | '.' :: rest1 =>
    let fp := rest1.takeWhile Char.isDigit
    let rest2 := rest1.dropWhile Char.isDigit
    if ip = [] ∧ fp = [] then none
    else
      match digitsValue 10 ('0' :: (ip ++ fp)), parseExponentPart rest2 with
      | some s, some e => some (s, e - (fp.length : Int))
      | _, _ => none
  | _ =>
    if ip = [] then none
    else
      match digitsValue 10 ip, parseExponentPart rest with
      | some s, some e => some (s, e)
      | _, _ => none

/-- The double denoted by the decimal `± s * 10 ^ e`. -/
def decimalToDouble (neg : Bool) (s : Nat) (e : Int) : JsNum :=
  if 0 ≤ e then roundDouble neg (s * 10 ^ e.toNat) 1 else roundDouble neg s (10 ^ (-e).toNat)

/-- The production `StrDecimalLiteral` after its sign. -/
def parseDecimalBody (neg : Bool) (cs : List Char) : JsNum :=
  if cs = "Infinity".toList then .inf neg
  else
    match parseUnsignedDecimal cs with
    | some (s, e) => decimalToDouble neg s e
    | none => .nan

/-- The abstract operation `StringToNumber`: white space is trimmed, the empty string is
0, a `StringNumericLiteral` has its value rounded to a double, anything else is `NaN`. -/
def stringToNumber (str : String) : JsNum :=
  match trimWs str.toList with
  | [] => .fin 0 0
  | '0' :: p :: ds =>
    let radix : Option Nat :=
      if p = 'x' ∨ p = 'X' then some 16
      else if p = 'o' ∨ p = 'O' then some 8
      else if p = 'b' ∨ p = 'B' then some 2
      else none
    match radix with
    | some b =>
      match digitsValue b ds with
      | some v => roundDouble false v 1
      | none => .nan
    | none => parseDecimalBody false ('0' :: p :: ds)
  | '+' :: cs => parseDecimalBody false cs
  | '-' :: cs => parseDecimalBody true cs
  | cs => parseDecimalBody false cs

/-- The abstract operation `ToNumber` on the scalars, as used by `Number(value)`. -/
def toNumber : JsVal → JsNum
  | .undefined => .nan
  | .null => .fin 0 0
  | .bool b => if b then .fin 1 0 else .fin 0 0
  | .num n => n
  | .str s => stringToNumber s

/-- The abstract operation `ToBoolean`: the falsy scalars are `undefined`, `null`, `false`,
zero, `NaN` and the empty string. -/
def truthy : JsVal → Bool
  | .undefined => false
  | .null => false
  | .bool b => b
  | .num .nan => false
  | .num (.inf _) => true
  | .num (.fin m _) => decide (m ≠ 0)
  | .str s => decide (s ≠ "")

/-- The expression `a || b`. -/
def jsOr (a b : JsVal) : JsVal := if truthy a then a else b

/-! ## Number to string -/

/-- The decimal digits of a natural number. -/
def decDigits (n : Nat) : List Char := Nat.toDigits 10 n

/-- For `0 < p < q`: the number of zeros between the decimal point and the first
significant digit of `p / q`. -/
def leadingZeros : Nat → Nat → Nat → Nat
  | 0, _, _ => 0
  | fuel + 1, p, q => if q ≤ p * 10 then 0 else leadingZeros fuel (p * 10) q + 1

/-- The integer `n` with `10 ^ (n - 1) ≤ p / q < 10 ^ n`, for positive `p`, `q`. -/
def decimalExponent (p q : Nat) : Int :=
  if q ≤ p then ((decDigits (p / q)).length : Int)
  else - (leadingZeros (decDigits q).length p q : Int)

/-- The decimal `c * 10 ^ e` with `k` digits that is nearest to `p / q` among those that
round to the double `x`, if there is one (`n0` is the decimal exponent of `p / q`). -/
def digitsCandidate (x : JsNum) (p q : Nat) (n0 : Int) (k : Nat) : Option (Nat × Int) :=
  let e : Int := n0 - (k : Int)
  let N : Nat := if 0 ≤ e then p else p * 10 ^ (-e).toNat
  let D : Nat := if 0 ≤ e then q * 10 ^ e.toNat else q
  let lo := N / D
  let hi := lo + 1
  let r := N % D
  let okLo : Bool := decide (lo ≠ 0) && decide (decimalToDouble false lo e = x)
  let okHi : Bool := decide (decimalToDouble false hi e = x)
  let preferLo : Bool := decide (2 * r < D) || (decide (2 * r = D) && decide (lo % 2 = 0))
  if okLo && okHi then some (if preferLo then lo else hi, e)
  else if okLo then some (lo, e)
  else if okHi then some (hi, e)
  else none

/-- The first digit count `k, k + 1, ...` (at most `fuel` of them) at which a decimal
rounds to `x`, with that decimal. -/
def shortestDigits (x : JsNum) (p q : Nat) (n0 : Int) : Nat → Nat → Option (Nat × Int)
  | 0, _ => none
  | fuel + 1, k =>
    match digitsCandidate x p q n0 k with
    | some r => some r
    | none => shortestDigits x p q n0 fuel (k + 1)

/-- The decimal `c * 10 ^ e` without trailing zeros in `c`. -/
def stripZeros : Nat → Nat → Int → Nat × Int
  | 0, c, e => (c, e)
  | fuel + 1, c, e => if c ≠ 0 ∧ c % 10 = 0 then stripZeros fuel (c / 10) (e + 1) else (c, e)

/-- The layout of `Number::toString` for the digits `ds` of `s` and the exponent `n`
(the value is `s * 10 ^ (n - k)` with `k` the number of digits). -/
def layoutDigits (ds : List Char) (n : Int) : List Char :=
  let k : Int := (ds.length : Int)
  if k ≤ n ∧ n ≤ 21 then ds ++ List.replicate (n - k).toNat '0'
  else if 0 < n ∧ n ≤ 21 then ds.take n.toNat ++ '.' :: ds.drop n.toNat
  else if -6 < n ∧ n ≤ 0 then '0' :: '.' :: (List.replicate (-n).toNat '0' ++ ds)
  else
    let ex : Int := n - 1
    let sign : Char := if ex < 0 then '-' else '+'
    let tail : List Char := 'e' :: sign :: decDigits ex.natAbs
    match ds with
    | [d] => d :: tail
    | d :: rest => d :: '.' :: (rest ++ tail)
    | [] => tail

/-- The string of the positive finite value `m / 2 ^ k`: the shortest decimal that
rounds to it, laid out by `layoutDigits`.  The search runs up to the digit count of the
exact decimal expansion of the value (17 digits suffice for a double). -/
def positiveToString (m k : Nat) : List Char :=
  let x := normDyadic (m : Int) k
  let p := m
  let q := 2 ^ k
  let n0 := decimalExponent p q
  let (c, e) : Nat × Int :=
    match shortestDigits x p q n0 ((n0 + (k : Int)).toNat + 17) 1 with
    | some r => r
    | none => (if 0 ≤ n0 - 17 then roundHalfEven p (q * 10 ^ (n0 - 17).toNat)
               else roundHalfEven (p * 10 ^ (17 - n0).toNat) q, n0 - 17)
  let (s, e1) := stripZeros (decDigits c).length c e
  let ds := decDigits s
  layoutDigits ds (e1 + (ds.length : Int))

/-- The abstract operation `Number::toString` (radix 10).  An integer below `2 ^ 53` is
its own shortest decimal and prints as its digits. -/
def numToString : JsNum → String
  | .nan => "NaN"
  | .inf neg => if neg then "-Infinity" else "Infinity"
  | .fin m k =>
    if m = 0 then "0"
    else
      let body : List Char :=
        if k = 0 ∧ m.natAbs < 2 ^ 53 then decDigits m.natAbs else positiveToString m.natAbs k
      String.mk (if m < 0 then '-' :: body else body)

/-! ## Dates: `new Date(value)` and `toISOString()` -/

/-- Whether a year of the proleptic Gregorian calendar is a leap year. -/
def isLeapYear (y : Int) : Bool :=
  decide (y % 4 = 0) && (decide (y % 100 ≠ 0) || decide (y % 400 = 0))

/-- The number of days of month `m` (1 to 12) of year `y`. -/
def daysInMonth (y : Int) (m : Nat) : Nat :=
  if m = 2 then (if isLeapYear y then 29 else 28)
  else if m = 4 ∨ m = 6 ∨ m = 9 ∨ m = 11 then 30
  else 31

/-- The day number, counted from 1970-01-01, of the civil date `y-m-d`. -/
def daysFromCivil (y : Int) (m d : Nat) : Int :=
  let y1 : Int := if m ≤ 2 then y - 1 else y
  let era : Int := y1 / 400
  let yoe : Int := y1 - era * 400
  let mp : Int := if 2 < m then (m : Int) - 3 else (m : Int) + 9
  let doy : Int := (153 * mp + 2) / 5 + (d : Int) - 1
  let doe : Int := yoe * 365 + yoe / 4 - yoe / 100 + doy
  era * 146097 + doe - 719468

/-- The civil date `(year, month, day)` of a day number counted from 1970-01-01. -/
def civilFromDays (z : Int) : Int × Nat × Nat :=
  let z1 : Int := z + 719468
  let era : Int := z1 / 146097
  let doe : Int := z1 - era * 146097
  let yoe : Int := (doe - doe / 1460 + doe / 36524 - doe / 146096) / 365
  let doy : Int := doe - (365 * yoe + yoe / 4 - yoe / 100)
  let mp : Int := (5 * doy + 2) / 153
  let d : Int := doy - (153 * mp + 2) / 5 + 1
  let m : Int := if mp < 10 then mp + 3 else mp - 9
  let y : Int := yoe + era * 400 + (if m ≤ 2 then 1 else 0)
  (y, m.toNat, d.toNat)

/-- The number of milliseconds in a day. -/
def msPerDay : Int := 86400000

/-- The time value (milliseconds since the epoch, UTC) of a civil date and time of day. -/
def makeTime (y : Int) (mo d h mi sec ms : Nat) : Int :=
  daysFromCivil y mo d * msPerDay + ((h : Int) * 3600000 + (mi : Int) * 60000 + (sec : Int) * 1000 + (ms : Int))

/-- The abstract operation `TimeClip` on a time value already an integer. -/
def timeClipInt (t : Int) : Option Int :=
  if t.natAbs ≤ 8640000000000000 then some t else none

/-- The abstract operation `TimeClip` on a Number: `NaN` (here `none`) for a value that is
not finite or exceeds 8.64e15 in magnitude, else the value truncated toward zero. -/
def timeClip : JsNum → Option Int
  | .nan => none
  | .inf _ => none
  | .fin m k =>
    if m.natAbs ≤ 8640000000000000 * 2 ^ k then
      some ((if m < 0 then -1 else 1) * ((m.natAbs / 2 ^ k : Nat) : Int))
    else none

/-- Exactly `n` decimal digits at the head of the list: their value and the rest. -/
def takeDigits : Nat → List Char → Option (Nat × List Char)
  | 0, cs => some (0, cs)
  | n + 1, cs =>
    match takeDigits n cs with
    | some (v, c :: rest) => if c.isDigit then some (10 * v + (c.toNat - 48), rest) else none
    | _ => none

/-- The date part `YYYY`, `YYYY-MM` or `YYYY-MM-DD` of the ECMAScript date-time string
format: year, month, day and the rest of the input. -/
def parseIsoDatePart (cs : List Char) : Option (Nat × Nat × Nat × List Char) :=
  match takeDigits 4 cs with
  | some (y, '-' :: r1) =>
    match takeDigits 2 r1 with
    | some (mo, '-' :: r2) =>
      match takeDigits 2 r2 with
      | some (d, r3) => some (y, mo, d, r3)
      | none => none
    | some (mo, r2) => some (y, mo, 1, r2)
    | none => none
  | some (y, r1) => some (y, 1, 1, r1)
  | none => none

/-- The time part `HH:mm`, `HH:mm:ss` or `HH:mm:ss.sss` followed by the UTC designator
`Z`: hour, minute, second, millisecond. -/
def parseIsoTimePartZ (cs : List Char) : Option (Nat × Nat × Nat × Nat) :=
  match takeDigits 2 cs with
  | some (h, ':' :: r1) =>
    match takeDigits 2 r1 with
    | some (mi, ['Z']) => some (h, mi, 0, 0)
    | some (mi, ':' :: r2) =>
      match takeDigits 2 r2 with
      | some (sec, ['Z']) => some (h, mi, sec, 0)
      | some (sec, '.' :: r3) =>
        match takeDigits 3 r3 with
        | some (ms, ['Z']) => some (h, mi, sec, ms)
        | _ => none
      | _ => none
    | _ => none
  | _ => none

/-- The time value of a string in the ECMAScript date-time format whose reading does not
depend on the engine or on the time zone of the host: a date-only form (read as UTC) or a
date and time with the designator `Z`, every field within its calendar range. -/
def parseIsoUtc (str : String) : Option Int :=
  match parseIsoDatePart str.toList with
  | some (y, mo, d, rest) =>
    if 1 ≤ mo ∧ mo ≤ 12 ∧ 1 ≤ d ∧ d ≤ daysInMonth y mo then
      match rest with
      | [] => some (makeTime y mo d 0 0 0 0)
      | 'T' :: t =>
        match parseIsoTimePartZ t with
        | some (h, mi, sec, ms) =>
          if h ≤ 23 ∧ mi ≤ 59 ∧ sec ≤ 59 then some (makeTime y mo d h mi sec ms) else none
        | none => none
      | _ => none
    else none
  | none => none

/-- A value of a numeric column of SQLite: NULL, a 64-bit integer or a floating-point
number. -/
inductive SqlNum where
  | null
  | int (v : Int)
  | real (x : JsNum)
  deriving DecidableEq, Repr

/-- What the repository's code leaves to the platform it runs on.

* `dateParseFallback`: `Date.parse` on a string outside the format read by `parseIsoUtc`
  (other spellings, local times, out-of-range fields) falls back to heuristics specific
  to the JavaScript engine; `none` is `NaN`.
* `sumApprox`: the result of SQLite's `SUM` when one of the values is floating-point,
  which is a floating-point sum whose rounding depends on the release of the library.
* `ignoredInsertAdvancesSeq`: whether an `INSERT OR IGNORE` that is ignored still
  advances the AUTOINCREMENT counter of the table. -/
structure Engine where
  dateParseFallback : String → Option Int
  sumApprox : List SqlNum → Except String SqlNum
  ignoredInsertAdvancesSeq : Bool

/-- The function `Date.parse`, with `none` for `NaN`. -/
def dateParse (eng : Engine) (str : String) : Option Int :=
  match parseIsoUtc str with
  | some t => timeClipInt t
  | none => (eng.dateParseFallback str).bind timeClipInt

/-- The time value of `new Date(value)` for one scalar argument: a string is parsed, any
other value is converted with `ToNumber` and clipped.  `none` is an invalid date. -/
def newDate (eng : Engine) : JsVal → Option Int
  | .str s => dateParse eng s
  | v => timeClip (toNumber v)

/-- The decimal digits of `n`, padded with zeros on the left to at least `width`. -/
def padDigits (width n : Nat) : List Char :=
  let ds := decDigits n
  List.replicate (width - ds.length) '0' ++ ds

/-- The method `toISOString` on a valid time value: `YYYY-MM-DDTHH:mm:ss.sssZ`, the year
written with a sign and six digits when it is outside 0 to 9999. -/
def toISOString (t : Int) : String :=
  let day : Int := t / msPerDay
  let inDay : Nat := (t % msPerDay).toNat
  let (y, mo, d) := civilFromDays day
  let year : List Char :=
    if 0 ≤ y ∧ y ≤ 9999 then padDigits 4 y.toNat
    else (if y < 0 then '-' else '+') :: padDigits 6 y.natAbs
  String.mk (year ++ '-' :: padDigits 2 mo ++ '-' :: padDigits 2 d ++ 'T' ::
    padDigits 2 (inDay / 3600000) ++ ':' :: padDigits 2 (inDay / 60000 % 60) ++ ':' ::
    padDigits 2 (inDay / 1000 % 60) ++ '.' :: padDigits 3 (inDay % 1000) ++ ['Z'])

/-! ## normalize.js -/

/-- The `payload` member of a request body.  `metric` is a string when present; `amount`
and `timestamp` are any JSON scalar. -/
structure Payload where
  metric : Option String
  amount : JsVal
  timestamp : JsVal
  deriving DecidableEq, Repr

/-- The request body of `POST /ingest`: `{source, payload: {metric, amount, timestamp}}`.
`source` is a string when present; `payload` is `none` when the member is absent, null or
not an object, the cases in which `raw.payload?.x` is `undefined`.  `json` is the text
`JSON.stringify(raw)`, which depends on member order and on members the pipeline does not
read. -/
structure Raw where
  source : Option String
  payload : Option Payload
  json : String
  deriving DecidableEq, Repr

/-- The record `normalizeEvent` returns. -/
structure CanonicalEvent where
  client_id : String
  metric : String
  amount : JsNum
  timestamp : Option String
  deriving DecidableEq, Repr

/-- The expression `s || dflt` for a string member that may be absent: the default
replaces an absent member and the empty string, both falsy. -/
def strOr (s : Option String) (dflt : String) : String :=
  match s with
  | some v => if v ≠ "" then v else dflt
  | none => dflt

/-- The expression `raw.payload?.metric`. -/
def Raw.metric (raw : Raw) : Option String := raw.payload.bind (fun p => p.metric)

/-- The expression `raw.payload?.amount`. -/
def Raw.amount (raw : Raw) : JsVal :=
  match raw.payload with
  | some p => p.amount
  | none => .undefined

/-- The expression `raw.payload?.timestamp`. -/
def Raw.timestamp (raw : Raw) : JsVal :=
  match raw.payload with
  | some p => p.timestamp
  | none => .undefined

/-- The function `safeDate` of normalize.js:
`isNaN(date.getTime()) ? null : date.toISOString()` for `date = new Date(value)`. -/
def safeDate (eng : Engine) (value : JsVal) : Option String :=
  match newDate eng value with
  | none => none
  | some t => some (toISOString t)

/-- The function `normalizeEvent` of normalize.js. -/
def normalizeEvent (eng : Engine) (raw : Raw) : CanonicalEvent :=
  { client_id := strOr raw.source "unknown"
    metric := strOr raw.metric "unknown"
    amount := toNumber (jsOr raw.amount (.num (.fin 0 0)))
    timestamp := safeDate eng raw.timestamp }

/-! ## fingerprint.js: SHA-256 over the UTF-8 bytes -/

/-- The UTF-8 bytes of one character. -/
def utf8EncodeChar (c : Char) : List Nat :=
  let n := c.toNat
  if n < 0x80 then [n]
  else if n < 0x800 then [0xC0 + n / 64, 0x80 + n % 64]
  else if n < 0x10000 then [0xE0 + n / 4096, 0x80 + n / 64 % 64, 0x80 + n % 64]
  else [0xF0 + n / 262144, 0x80 + n / 4096 % 64, 0x80 + n / 64 % 64, 0x80 + n % 64]

/-- The UTF-8 bytes of a string. -/
def utf8Encode (str : String) : List Nat := str.toList.flatMap utf8EncodeChar

/-- The round constants of SHA-256. -/
def sha256K : List Nat :=
  [0x428a2f98, 0x71374491, 0xb5c0fbcf, 0xe9b5dba5, 0x3956c25b, 0x59f111f1, 0x923f82a4, 0xab1c5ed5,
   0xd807aa98, 0x12835b01, 0x243185be, 0x550c7dc3, 0x72be5d74, 0x80deb1fe, 0x9bdc06a7, 0xc19bf174,
   0xe49b69c1, 0xefbe4786, 0x0fc19dc6, 0x240ca1cc, 0x2de92c6f, 0x4a7484aa, 0x5cb0a9dc, 0x76f988da,
   0x983e5152, 0xa831c66d, 0xb00327c8, 0xbf597fc7, 0xc6e00bf3, 0xd5a79147, 0x06ca6351, 0x14292967,
   0x27b70a85, 0x2e1b2138, 0x4d2c6dfc, 0x53380d13, 0x650a7354, 0x766a0abb, 0x81c2c92e, 0x92722c85,
   0xa2bfe8a1, 0xa81a664b, 0xc24b8b70, 0xc76c51a3, 0xd192e819, 0xd6990624, 0xf40e3585, 0x106aa070,
   0x19a4c116, 0x1e376c08, 0x2748774c, 0x34b0bcb5, 0x391c0cb3, 0x4ed8aa4a, 0x5b9cca4f, 0x682e6ff3,
   0x748f82ee, 0x78a5636f, 0x84c87814, 0x8cc70208, 0x90befffa, 0xa4506ceb, 0xbef9a3f7, 0xc67178f2]

/-- The working variables `a` to `h` of SHA-256, also the hash value between blocks. -/
structure Sha256State where
  a : Nat
  b : Nat
  c : Nat
  d : Nat
  e : Nat
  f : Nat
  g : Nat
  h : Nat
  deriving DecidableEq, Repr

/-- The initial hash value of SHA-256. -/
def sha256Init : Sha256State :=
  ⟨0x6a09e667, 0xbb67ae85, 0x3c6ef372, 0xa54ff53a, 0x510e527f, 0x9b05688c, 0x1f83d9ab, 0x5be0cd19⟩

/-- Addition of 32-bit words. -/
def add32 (x y : Nat) : Nat := (x + y) % 2 ^ 32

/-- Rotation of a 32-bit word to the right by `n` bits. -/
def rotr (n x : Nat) : Nat := ((x >>> n) ||| (x <<< (32 - n))) % 2 ^ 32

/-- The function `Ch` of SHA-256. -/
def sha256Ch (x y z : Nat) : Nat := (x &&& y) ^^^ ((x ^^^ 0xffffffff) &&& z)

/-- The function `Maj` of SHA-256. -/
def sha256Maj (x y z : Nat) : Nat := (x &&& y) ^^^ (x &&& z) ^^^ (y &&& z)

/-- The function `Σ₀` of SHA-256. -/
def bigSigma0 (x : Nat) : Nat := rotr 2 x ^^^ rotr 13 x ^^^ rotr 22 x

/-- The function `Σ₁` of SHA-256. -/
def bigSigma1 (x : Nat) : Nat := rotr 6 x ^^^ rotr 11 x ^^^ rotr 25 x

/-- The function `σ₀` of SHA-256. -/
def smallSigma0 (x : Nat) : Nat := rotr 7 x ^^^ rotr 18 x ^^^ (x >>> 3)

/-- The function `σ₁` of SHA-256. -/
def smallSigma1 (x : Nat) : Nat := rotr 17 x ^^^ rotr 19 x ^^^ (x >>> 10)

/-- One round of the compression function, with round constant `k` and schedule word `w`. -/
def sha256Round (st : Sha256State) (k w : Nat) : Sha256State :=
  let t1 := add32 (add32 (add32 st.h (bigSigma1 st.e)) (add32 (sha256Ch st.e st.f st.g) k)) w
  let t2 := add32 (bigSigma0 st.a) (sha256Maj st.a st.b st.c)
  ⟨add32 t1 t2, st.a, st.b, st.c, add32 st.d t1, st.e, st.f, st.g⟩

/-- The rounds for the remaining constants `ks`; `win` holds the sixteen schedule words
`W[t]` to `W[t + 15]` and slides by one word per round. -/
def sha256Rounds : List Nat → List Nat → Sha256State → Sha256State
  | [], _, st => st
  | k :: ks, win, st =>
    let wt := win.getD 0 0
    let wNew := add32 (add32 (smallSigma1 (win.getD 14 0)) (win.getD 9 0))
      (add32 (smallSigma0 (win.getD 1 0)) wt)
    sha256Rounds ks (win.drop 1 ++ [wNew]) (sha256Round st k wt)

/-- The big-endian 32-bit words of a list of bytes. -/
def bytesToWords : List Nat → List Nat
  | b0 :: b1 :: b2 :: b3 :: rest => (((b0 * 256 + b1) * 256 + b2) * 256 + b3) :: bytesToWords rest
  | _ => []

/-- The hash value after one more 64-byte block. -/
def sha256Block (hv : Sha256State) (block : List Nat) : Sha256State :=
  let r := sha256Rounds sha256K (bytesToWords block) hv
  ⟨add32 hv.a r.a, add32 hv.b r.b, add32 hv.c r.c, add32 hv.d r.d,
   add32 hv.e r.e, add32 hv.f r.f, add32 hv.g r.g, add32 hv.h r.h⟩

/-- The hash value after `n` more blocks taken from the bytes. -/
def sha256Blocks : Nat → Sha256State → List Nat → Sha256State
  | 0, hv, _ => hv
  | n + 1, hv, bytes => sha256Blocks n (sha256Block hv (bytes.take 64)) (bytes.drop 64)

/-- The big-endian bytes, `n` of them, of a number. -/
def bigEndian : Nat → Nat → List Nat
  | 0, _ => []
  | n + 1, v => bigEndian n (v / 256) ++ [v % 256]

/-- The padded message: a bit 1, zeros, and the bit length on 64 bits, to a multiple of
64 bytes. -/
def sha256Pad (msg : List Nat) : List Nat :=
  let zeros := (64 - (msg.length + 9) % 64) % 64
  msg ++ 0x80 :: (List.replicate zeros 0 ++ bigEndian 8 (8 * msg.length))

/-- The character of a hexadecimal digit, lower case. -/
def hexDigit (n : Nat) : Char := Nat.digitChar (n % 16)

/-- The eight hexadecimal digits of a 32-bit word. -/
def hexWord (w : Nat) : List Char :=
  (bigEndian 4 w).flatMap (fun b => [hexDigit (b / 16), hexDigit b])

/-- The SHA-256 digest of a list of bytes, hex-encoded. -/
def sha256Hex (msg : List Nat) : String :=
  let padded := sha256Pad msg
  let r := sha256Blocks (padded.length / 64) sha256Init padded
  String.mk ([r.a, r.b, r.c, r.d, r.e, r.f, r.g, r.h].flatMap hexWord)

/-- The interpolation `${value}` of a member that is `null` or a string. -/
def nullableToString : Option String → String
  | none => "null"
  | some s => s

/-- The string that `fingerprint` hashes: the template literal
`${event.client_id}|${event.metric}|${event.amount}|${event.timestamp}`. -/
def fingerprintInput (event : CanonicalEvent) : String :=
  event.client_id ++ "|" ++ event.metric ++ "|" ++ numToString event.amount ++ "|" ++
    nullableToString event.timestamp

/-- The function `fingerprint` of fingerprint.js:
`crypto.createHash("sha256").update(str).digest("hex")`, where `update` takes the UTF-8
bytes of the string. -/
def fingerprint (event : CanonicalEvent) : String :=
  sha256Hex (utf8Encode (fingerprintInput event))

/-! ## db.js: the two tables -/

/-- A row of `raw_events`. -/
structure RawEvent where
  id : Nat
  source : Option String
  raw_payload : String
  status : String
  error_message : Option String
  created_at : String
  deriving DecidableEq, Repr

/-- A row of `normalized_events`. -/
structure NormalizedEvent where
  id : Nat
  event_fingerprint : String
  client_id : String
  metric : String
  amount : SqlNum
  timestamp : Option String
  created_at : String
  deriving DecidableEq, Repr

/-- The database: the rows of each table in insertion order, and for each table the
largest rowid handed out so far (its entry in `sqlite_sequence`, kept by AUTOINCREMENT). -/
structure Store where
  raw_events : List RawEvent
  raw_seq : Nat
  normalized_events : List NormalizedEvent
  normalized_seq : Nat
  deriving DecidableEq, Repr

/-- The database after `db.js` has created the tables. -/
def Store.empty : Store := ⟨[], 0, [], 0⟩

/-- The connection: the database as the statements see it, and, while a transaction is
open, the database as it was at `BEGIN`. -/
structure Conn where
  db : Store
  saved : Option Store
  deriving DecidableEq, Repr

/-- The rowid AUTOINCREMENT assigns: one more than the largest rowid ever used. -/
def nextRowid (seq : Nat) (ids : List Nat) : Nat := max seq (ids.foldr max 0) + 1

/-- The value an `amount` parameter is stored as: the driver binds `NaN` as NULL and any
other number as a double, and the INTEGER affinity of the column turns a double that is an
integer strictly between the least and the greatest 64-bit integer into that integer. -/
def bindAmount : JsNum → SqlNum
  | .nan => .null
  | .inf neg => .real (.inf neg)
  | .fin m k =>
    match normDyadic m k with
    | .fin v 0 => if -(2 : Int) ^ 63 < v ∧ v < 2 ^ 63 - 1 then .int v else .real (.fin v 0)
    | x => .real x

/-- The statement `BEGIN TRANSACTION`. -/
def Conn.begin (c : Conn) : Conn :=
  match c.saved with
  | none => { c with saved := some c.db }
  | some _ => c

/-- The statement `COMMIT`. -/
def Conn.commit (c : Conn) : Conn := { c with saved := none }

/-- The statement `ROLLBACK`: the database is again as it was at `BEGIN`. -/
def Conn.rollback (c : Conn) : Conn :=
  match c.saved with
  | some old => ⟨old, none⟩
  | none => c

/-- The statement `INSERT INTO raw_events (source, raw_payload, status) VALUES (?, ?, ?)`,
with the rowid of the new row (`this.lastID`). -/
def Conn.insertRaw (c : Conn) (source : Option String) (raw_payload status now : String) :
    Conn × Nat :=
  let id := nextRowid c.db.raw_seq (c.db.raw_events.map (fun r => r.id))
  ({ c with db := { c.db with
       raw_events := c.db.raw_events ++ [⟨id, source, raw_payload, status, none, now⟩]
       raw_seq := id } }, id)

/-- The statement `INSERT OR IGNORE INTO normalized_events (event_fingerprint, client_id,
metric, amount, timestamp) VALUES (?, ?, ?, ?, ?)`: ignored when a row already has the
fingerprint (`event_fingerprint TEXT UNIQUE`). -/
def Conn.insertNormalizedOrIgnore (c : Conn) (eng : Engine) (hash : String)
    (ev : CanonicalEvent) (now : String) : Conn :=
  let id := nextRowid c.db.normalized_seq (c.db.normalized_events.map (fun r => r.id))
  if c.db.normalized_events.any (fun r => r.event_fingerprint = hash) then
    { c with db := { c.db with
        normalized_seq := if eng.ignoredInsertAdvancesSeq then id else c.db.normalized_seq } }
  else
    { c with db := { c.db with
        normalized_events := c.db.normalized_events ++
          [⟨id, hash, ev.client_id, ev.metric, bindAmount ev.amount, ev.timestamp, now⟩]
        normalized_seq := id } }

/-- The statement `UPDATE raw_events SET status = 'NORMALIZED' WHERE id = ?`. -/
def Conn.updateNormalized (c : Conn) (id : Nat) : Conn :=
  { c with db := { c.db with
      raw_events := c.db.raw_events.map
        (fun r => if r.id = id then { r with status := "NORMALIZED" } else r) } }

/-- The statement `UPDATE raw_events SET status = 'FAILED', error_message = ? WHERE id = ?`. -/
def Conn.updateFailed (c : Conn) (message : String) (id : Nat) : Conn :=
  { c with db := { c.db with
      raw_events := c.db.raw_events.map
        (fun r => if r.id = id then { r with status := "FAILED", error_message := some message }
                  else r) } }

/-! ## routes.js -/

/-- The two readings of `CURRENT_TIMESTAMP` an ingest attempt can make, one per insert. -/
structure Clock where
  rawInsert : String
  normalizedInsert : String
  deriving DecidableEq, Repr

/-- The response of `POST /ingest`: `{status: "processed"}`, or status 500 with
`{error: message}`. -/
inductive IngestResponse where
  | processed
  | serverError (message : String)
  deriving DecidableEq, Repr

/-- The handler of `POST /ingest`, as the statements it issues on a connection with no
open transaction, in the order the handler submits them.  The store has no storage
faults, so the callback of the raw insert runs with `err` null.  The result is the
database the handler leaves, with its response. -/
def ingest (eng : Engine) (clk : Clock) (simulateFailure : Bool) (raw : Raw) (db : Store) :
    Store × IngestResponse :=
  let c1 := (Conn.mk db none).begin
  let (c2, lastID) := c1.insertRaw raw.source raw.json "RECEIVED" clk.rawInsert
  let normalized := normalizeEvent eng raw
  let hash := fingerprint normalized
  if simulateFailure then
    let c3 := c2.rollback
    let c4 := c3.updateFailed "Simulated DB failure" lastID
    (c4.db, .serverError "Simulated DB failure")
  else
    let c3 := c2.insertNormalizedOrIgnore eng hash normalized clk.normalizedInsert
    let c4 := c3.updateNormalized lastID
    let c5 := c4.commit
    (c5.db, .processed)

/-- The order of the BINARY collation on bytes (`memcmp`, a proper prefix first). -/
def bytesLt : List Nat → List Nat → Bool
  | _, [] => false
  | [], _ :: _ => true
  | a :: as, b :: bs => decide (a < b) || (decide (a = b) && bytesLt as bs)

/-- The comparison `s ≤ t` of two TEXT values under the BINARY collation. -/
def textLe (s t : String) : Bool := !bytesLt (utf8Encode t) (utf8Encode s)

/-- The sum of two 64-bit integers, if it is one. -/
def addInt64 (a b : Int) : Option Int :=
  if -(2 : Int) ^ 63 ≤ a + b ∧ a + b < 2 ^ 63 then some (a + b) else none

/-- The running sum of 64-bit integers from `acc`, if no partial sum overflows. -/
def sumInt64 : Int → List Int → Option Int
  | acc, [] => some acc
  | acc, v :: vs =>
    match addInt64 acc v with
    | some s => sumInt64 s vs
    | none => none

/-- The integers of a list of values, if all of them are integers. -/
def allInts : List SqlNum → Option (List Int)
  | [] => some []
  | .int v :: rest => (allInts rest).map (fun vs => v :: vs)
  | _ :: _ => none

/-- The aggregate `SUM(amount)` of SQLite over the values of a group: NULL values are
skipped and the sum of none is NULL; the sum of integers is an integer, and raises
`integer overflow` when a partial sum leaves the 64-bit range; with a floating-point value
among them the sum is floating-point. -/
def sqlSum (eng : Engine) (cells : List SqlNum) : Except String SqlNum :=
  let vals := cells.filter (fun v => v ≠ .null)
  if vals = [] then .ok .null
  else
    match allInts vals with
    | some ints =>
      match sumInt64 0 ints with
      | some total => .ok (.int total)
      | none => .error "integer overflow"
    | none => eng.sumApprox vals

/-- A row of the result of `GET /aggregates`. -/
structure AggregateRow where
  client_id : String
  count : Nat
  total : SqlNum
  deriving DecidableEq, Repr

/-- The rows selected by the `WHERE` clause the handler builds: `client_id = ?` when
`client` is given and not empty, `timestamp BETWEEN ? AND ?` when `from` and `to` both
are (a NULL timestamp is then never selected). -/
def selectRows (client fromTs toTs : Option String) (rows : List NormalizedEvent) :
    List NormalizedEvent :=
  rows.filter (fun r =>
    (match client with
     | some c => if c ≠ "" then decide (r.client_id = c) else true
     | none => true) &&
    (match fromTs, toTs with
     | some lo, some hi =>
       if lo ≠ "" ∧ hi ≠ "" then
         (match r.timestamp with
          | some t => textLe lo t && textLe t hi
          | none => false)
       else true
     | _, _ => true))

/-- The result rows for the group keys `keys` over the selected rows: for each key the
number of its rows and the `SUM` of their amounts, or the first error raised. -/
def groupRows (eng : Engine) (rows : List NormalizedEvent) :
    List String → Except String (List AggregateRow)
  | [] => .ok []
  | c :: cs =>
    let grp := rows.filter (fun r => r.client_id = c)
    match sqlSum eng (grp.map (fun r => r.amount)) with
    | .error e => .error e
    | .ok total =>
      match groupRows eng rows cs with
      | .error e => .error e
      | .ok rest => .ok (⟨c, grp.length, total⟩ :: rest)

/-- The handler of `GET /aggregates`:
`SELECT client_id, COUNT(*) as count, SUM(amount) as total FROM normalized_events
WHERE ... GROUP BY client_id`, the groups in the order of their keys; an error of the
query is answered with status 500 and its message. -/
def aggregates (eng : Engine) (client fromTs toTs : Option String) (db : Store) :
    Except String (List AggregateRow) :=
  let rows := selectRows client fromTs toTs db.normalized_events
  let keys := ((rows.map (fun r => r.client_id)).dedup).insertionSort (fun a b => textLe a b = true)
  groupRows eng rows keys

/-! ## Reachable stores, and a concrete platform -/

/-- The stores reachable from the empty one by completed ingest attempts, with or
without fault injection. -/
inductive Reachable : Store → Prop where
  | empty : Reachable Store.empty
  | step (eng : Engine) (clk : Clock) (simulateFailure : Bool) (raw : Raw) {db : Store} :
      Reachable db → Reachable (ingest eng clk simulateFailure raw db).1

/-- The schema constraint `event_fingerprint TEXT UNIQUE` on a store. -/
def UniqueFingerprints (db : Store) : Prop :=
  (db.normalized_events.map (fun r => r.event_fingerprint)).Nodup

/-- The double of a numeric value that is not NULL. -/
def SqlNum.toDouble : SqlNum → JsNum
  | .null => .nan
  | .int v => roundDouble (decide (v < 0)) v.natAbs 1
  | .real x => x

/-- The sum of two doubles, correctly rounded. -/
def doubleAdd : JsNum → JsNum → JsNum
  | .nan, _ => .nan
  | _, .nan => .nan
  | .inf a, .inf b => if a = b then .inf a else .nan
  | .inf a, .fin _ _ => .inf a
  | .fin _ _, .inf b => .inf b
  | .fin m j, .fin n k =>
    let num : Int := m * 2 ^ k + n * 2 ^ j
    roundDouble (decide (num < 0)) num.natAbs (2 ^ (j + k))

/-- A platform to run the model on: an engine whose `Date.parse` knows the ECMAScript
format only, and a library that sums floating-point values from left to right and lets
an ignored insert advance the AUTOINCREMENT counter. -/
def referenceEngine : Engine where
  dateParseFallback := fun _ => none
  sumApprox := fun vals => .ok (.real (vals.foldl (fun acc v => doubleAdd acc v.toDouble) (.fin 0 0)))
  ignoredInsertAdvancesSeq := true

/-- Two readings of the clock, for the examples. -/
def sampleClock : Clock := ⟨"2024-01-02 03:04:05", "2024-01-02 03:04:05"⟩

/-- The request body with the given members, all strings without a character that JSON
escapes, serialized in this order. -/
def sampleRaw (source metric amount timestamp : String) : Raw where
  source := some source
  payload := some ⟨some metric, .str amount, .str timestamp⟩
  json := "\x7b\"source\":\"" ++ source ++ "\",\"payload\":\x7b\"metric\":\"" ++ metric ++
    "\",\"amount\":\"" ++ amount ++ "\",\"timestamp\":\"" ++ timestamp ++ "\"\x7d\x7d"

/-- The request body of the scenarios:
`{source: "client_A", payload: {metric: "sales", amount: "1200", timestamp: "2024-01-01"}}`. -/
def scenarioRaw : Raw := sampleRaw "client_A" "sales" "1200" "2024-01-01"

/-! ## Predicates and scenarios of the statements -/

/-- The store has been left with every raw row NORMALIZED and without error message. -/
def AllNormalized (db : Store) : Prop :=
  ∀ r ∈ db.raw_events, r.status = "NORMALIZED" ∧ r.error_message = none

deriving instance DecidableEq for Except

/-- Whether a Number is an integer. -/
def JsNum.isInteger : JsNum → Bool
  | .nan => false
  | .inf _ => false
  | .fin m k =>
    match normDyadic m k with
    | .fin _ 0 => true
    | _ => false

/-- The fingerprint as the design describes it: the SHA-256 digest, hex-encoded, of the
UTF-8 encoding of the ordered tuple `(clientId, metric, amount, timestamp)` joined with
the delimiter `|`, the amount and a null timestamp written as JavaScript prints them. -/
def specFingerprint (clientId metric : String) (amount : JsNum) (timestamp : Option String) :
    String :=
  sha256Hex (utf8Encode
    ("|".intercalate [clientId, metric, numToString amount, nullableToString timestamp]))

/-- The number a string of decimal digits denotes. -/
def digitsNat (cs : List Char) : Nat := cs.foldl (fun a c => 10 * a + (c.toNat - 48)) 0

/-- Whether a Number is a double in canonical form: `NaN`, an infinity, or a finite value
that rounding leaves as it is. -/
def JsNum.isDouble : JsNum → Bool
  | .fin m k => decide (roundDouble false m.natAbs (2 ^ k) = .fin (m.natAbs : Int) k)
  | _ => true

/-- The Number with the opposite sign. -/
def JsNum.negate : JsNum → JsNum
  | .nan => .nan
  | .inf neg => .inf (!neg)
  | .fin m k => .fin (-m) k

/-- The decimal `(s, e)`, of value `s * 10 ^ e`, written by a string of digits with an
optional point and an optional exponent part. -/
def readDecimal (cs : List Char) : Nat × Int :=
  let mant := cs.takeWhile (fun c => c ≠ 'e')
  let expo := (cs.dropWhile (fun c => c ≠ 'e')).drop 1
  let ip := mant.takeWhile (fun c => c ≠ '.')
  let fp := (mant.dropWhile (fun c => c ≠ '.')).drop 1
  let ex : Int :=
    match expo with
    | '-' :: ds => -(digitsNat ds : Int)
    | '+' :: ds => (digitsNat ds : Int)
    | _ => 0
  (digitsNat (ip ++ fp), ex - (fp.length : Int))

/-- The Number a string printed by `numToString` is read back as. -/
def readNumber (cs : List Char) : JsNum :=
  if 'N' ∈ cs then .nan
  else if 'I' ∈ cs then .inf (decide ('-' ∈ cs))
  else
    match cs with
    | '-' :: body => (decimalToDouble false (readDecimal body).1 (readDecimal body).2).negate
    | body => decimalToDouble false (readDecimal body).1 (readDecimal body).2

/-- The value a row object holds for a numeric column: `null` for NULL, else the number. -/
def SqlNum.toJsVal : SqlNum → JsVal
  | .null => .null
  | .int v => .num (.fin v 0)
  | .real x => .num x

/-- Whether a value of a numeric column is an integer. -/
def SqlNum.isInt : SqlNum → Bool
  | .int _ => true
  | _ => false

/-- The integer of a value of a numeric column that is one (0 otherwise). -/
def SqlNum.toInt : SqlNum → Int
  | .int v => v
  | _ => 0

/-- The amounts, as integers and in row order, of the rows of a client. -/
def clientAmounts (rows : List NormalizedEvent) (c : String) : List Int :=
  (rows.filter (fun r => r.client_id = c)).map (fun r => r.amount.toInt)

/-- The store after ingesting, without fault injection, two events for `client_A` with
amounts 100 and 200 and one for `client_B` with amount 50. -/
def aggregateScenario : Store :=
  (ingest referenceEngine sampleClock false (sampleRaw "client_B" "sales" "50" "2024-01-03")
    (ingest referenceEngine sampleClock false (sampleRaw "client_A" "sales" "200" "2024-01-02")
      (ingest referenceEngine sampleClock false (sampleRaw "client_A" "sales" "100" "2024-01-01")
        Store.empty).1).1).1

/-- The store after ingesting, without fault injection, two events for `client_A` with
amount `2 ^ 62` each. -/
def overflowScenario : Store :=
  (ingest referenceEngine sampleClock false
      (sampleRaw "client_A" "refunds" "4611686018427387904" "2024-01-01")
    (ingest referenceEngine sampleClock false
        (sampleRaw "client_A" "sales" "4611686018427387904" "2024-01-01")
      Store.empty).1).1

/-! ## Lemmas on the statements -/

theorem le_foldr_max (ids : List Nat) : ∀ i ∈ ids, i ≤ ids.foldr max 0 := by
  induction ids with
  | nil => intro i hi; cases hi
  | cons a rest ih =>
    intro i hi
    rcases List.mem_cons.mp hi with h | h
    · subst h; exact Nat.le_max_left _ _
    · exact Nat.le_trans (ih i h) (Nat.le_max_right _ _)

theorem lt_nextRowid (seq : Nat) (ids : List Nat) : ∀ i ∈ ids, i < nextRowid seq ids := by
  intro i hi
  have h1 := le_foldr_max ids i hi
  have h2 : ids.foldr max 0 ≤ max seq (ids.foldr max 0) := Nat.le_max_right _ _
  unfold nextRowid
  omega

/-- The rowid of a new raw row is above the rowid of every row of the table. -/
theorem raw_id_lt_next (db : Store) :
    ∀ r ∈ db.raw_events, r.id < nextRowid db.raw_seq (db.raw_events.map (fun r => r.id)) := by
  intro r hr
  exact lt_nextRowid _ _ _ (List.mem_map_of_mem _ hr)

/-- An `UPDATE ... WHERE id = ?` for an id above every rowid changes no row. -/
theorem map_update_fresh (rows : List RawEvent) (id : Nat) (f : RawEvent → RawEvent)
    (h : ∀ r ∈ rows, r.id < id) :
    rows.map (fun r => if r.id = id then f r else r) = rows := by
  induction rows with
  | nil => rfl
  | cons a rest ih =>
    have ha : a.id ≠ id := Nat.ne_of_lt (h a (List.mem_cons_self _ _))
    simp only [List.map_cons, if_neg ha]
    rw [ih (fun r hr => h r (List.mem_cons_of_mem _ hr))]

/-- With fault injection the handler leaves the database as it found it. -/
theorem ingest_fault (eng : Engine) (clk : Clock) (raw : Raw) (db : Store) :
    ingest eng clk true raw db = (db, .serverError "Simulated DB failure") := by
  simp only [ingest, Conn.begin, Conn.insertRaw, Conn.rollback, Conn.updateFailed, if_true]
  rw [map_update_fresh _ _ _ (raw_id_lt_next db)]

/-- The raw table after an attempt without fault injection: the rows it had, and the row of
the attempt with status NORMALIZED. -/
theorem ingest_ok_raw (eng : Engine) (clk : Clock) (raw : Raw) (db : Store) :
    (ingest eng clk false raw db).1.raw_events = db.raw_events ++
      [⟨nextRowid db.raw_seq (db.raw_events.map (fun r => r.id)), raw.source, raw.json,
        "NORMALIZED", none, clk.rawInsert⟩] := by
  have hfresh : db.raw_events.map (fun r =>
      if r.id = nextRowid db.raw_seq (db.raw_events.map (fun r => r.id)) then
        { r with status := "NORMALIZED" } else r) = db.raw_events :=
    map_update_fresh db.raw_events _ _ (raw_id_lt_next db)
  by_cases h : db.normalized_events.any
      (fun r => r.event_fingerprint = fingerprint (normalizeEvent eng raw)) = true
  · simp only [ingest, Conn.begin, Conn.insertRaw, Conn.insertNormalizedOrIgnore,
      Conn.updateNormalized, Conn.commit, h, if_true, List.map_append, hfresh]
    simp
  · simp only [ingest, Conn.begin, Conn.insertRaw, Conn.insertNormalizedOrIgnore,
      Conn.updateNormalized, Conn.commit, h, if_false, List.map_append, hfresh]
    simp
    exact hfresh

/-- The normalized table after an attempt without fault injection: unchanged when a row
has the fingerprint, else extended by the row of the attempt. -/
theorem ingest_ok_normalized (eng : Engine) (clk : Clock) (raw : Raw) (db : Store) :
    (ingest eng clk false raw db).1.normalized_events =
      if db.normalized_events.any
          (fun r => r.event_fingerprint = fingerprint (normalizeEvent eng raw)) then
        db.normalized_events
      else
        db.normalized_events ++
          [⟨nextRowid db.normalized_seq (db.normalized_events.map (fun r => r.id)),
            fingerprint (normalizeEvent eng raw), (normalizeEvent eng raw).client_id,
            (normalizeEvent eng raw).metric, bindAmount (normalizeEvent eng raw).amount,
            (normalizeEvent eng raw).timestamp, clk.normalizedInsert⟩] := by
  by_cases h : db.normalized_events.any
      (fun r => r.event_fingerprint = fingerprint (normalizeEvent eng raw)) = true
  · simp only [ingest, Conn.begin, Conn.insertRaw, Conn.insertNormalizedOrIgnore,
      Conn.updateNormalized, Conn.commit, h, if_true]
    simp
  · simp only [ingest, Conn.begin, Conn.insertRaw, Conn.insertNormalizedOrIgnore,
      Conn.updateNormalized, Conn.commit, h, if_false]
    simp

theorem ingest_ok_response (eng : Engine) (clk : Clock) (raw : Raw) (db : Store) :
    (ingest eng clk false raw db).2 = .processed := by
  simp [ingest]

theorem allNormalized_ingest (eng : Engine) (clk : Clock) (simulateFailure : Bool) (raw : Raw)
    (db : Store) (h : AllNormalized db) :
    AllNormalized (ingest eng clk simulateFailure raw db).1 := by
  cases simulateFailure with
  | true => rw [ingest_fault]; exact h
  | false =>
    intro r hr
    rw [ingest_ok_raw] at hr
    rcases List.mem_append.mp hr with h1 | h1
    · exact h r h1
    · rw [List.mem_singleton] at h1
      subst h1
      exact ⟨rfl, rfl⟩

theorem allNormalized_of_reachable (db : Store) (h : Reachable db) : AllNormalized db := by
  induction h with
  | empty => intro r hr; cases hr
  | step eng clk simulateFailure raw _ ih => exact allNormalized_ingest eng clk simulateFailure raw _ ih

/-- In a list whose keys are pairwise distinct, exactly one element has a key that occurs. -/
theorem filter_key_length_one {α : Type} (f : α → String) (l : List α) (a : String)
    (hnd : (l.map f).Nodup) (hmem : a ∈ l.map f) :
    (l.filter (fun x => f x = a)).length = 1 := by
  induction l with
  | nil => cases hmem
  | cons x rest ih =>
    rw [List.map_cons, List.nodup_cons] at hnd
    by_cases hx : f x = a
    · have hnot : ∀ y ∈ rest, f y ≠ a := by
        intro y hy hya
        exact hnd.1 (by rw [hx, ← hya]; exact List.mem_map_of_mem f hy)
      have hnil : rest.filter (fun y => f y = a) = [] := by
        rw [List.filter_eq_nil_iff]
        intro y hy
        simpa using hnot y hy
      simp [List.filter_cons, hx, hnil]
    · have hmem' : a ∈ rest.map f := by
        rw [List.map_cons, List.mem_cons] at hmem
        rcases hmem with h | h
        · exact absurd h.symm hx
        · exact h
      simp [List.filter_cons, hx, ih hnd.2 hmem']

/-- After an attempt without fault injection a row has the fingerprint of the event. -/
theorem ingest_ok_has_fingerprint (eng : Engine) (clk : Clock) (raw : Raw) (db : Store) :
    fingerprint (normalizeEvent eng raw) ∈
      (ingest eng clk false raw db).1.normalized_events.map (fun r => r.event_fingerprint) := by
  rw [ingest_ok_normalized]
  split
  · rename_i h
    rw [List.any_eq_true] at h
    obtain ⟨r, hr, hfp⟩ := h
    exact List.mem_map.mpr ⟨r, hr, by simpa using hfp⟩
  · simp

/-- An attempt without fault injection keeps the fingerprints pairwise distinct. -/
theorem ingest_ok_unique (eng : Engine) (clk : Clock) (raw : Raw) (db : Store)
    (h : UniqueFingerprints db) : UniqueFingerprints (ingest eng clk false raw db).1 := by
  unfold UniqueFingerprints at *
  rw [ingest_ok_normalized]
  split
  · exact h
  · rename_i hany
    rw [List.map_append, List.nodup_append]
    refine ⟨h, by simp, ?_⟩
    intro a ha hb
    rw [List.map_singleton, List.mem_singleton] at hb
    subst hb
    apply hany
    rw [List.any_eq_true]
    obtain ⟨r, hr, hfp⟩ := List.mem_map.mp ha
    exact ⟨r, hr, by simpa using hfp⟩

/-- What a stored amount reads back as: the number in canonical form, or `null` for
`NaN`. -/
theorem bindAmount_toJsVal (a : JsNum) :
    (bindAmount a).toJsVal =
      (match a with
       | .nan => .null
       | .inf neg => .num (.inf neg)
       | .fin m k => .num (normDyadic m k)) := by
  cases a with
  | nan => rfl
  | inf neg => rfl
  | fin m k =>
    simp only [bindAmount]
    split
    · rename_i v hv
      rw [hv]
      split <;> rfl
    · rename_i x hx
      rfl

/-! ## The ingest handler: claims C1 to C5 -/

/-- C1, the code at the scenario input: with fault injection on the empty store
(`BEGIN`, `INSERT` raw, `ROLLBACK`, `UPDATE`), the handler answers 500 and leaves the raw
table empty: the raw row was inserted inside the transaction and is rolled back with it,
and the `UPDATE ... SET status = 'FAILED'` that follows finds no row. -/
theorem ingest_fault_loses_raw_row :
    ingest referenceEngine sampleClock true scenarioRaw Store.empty =
      (Store.empty, .serverError "Simulated DB failure") ∧
    (ingest referenceEngine sampleClock true scenarioRaw Store.empty).1.raw_events = [] := by
  rw [ingest_fault]
  exact ⟨rfl, rfl⟩

/-- C3: for every store and every raw input, an ingest attempt with fault injection
creates no NormalizedEvent row: the normalized relation is the same after as before. -/
theorem ingest_fault_normalized_unchanged (eng : Engine) (clk : Clock) (raw : Raw) (db : Store) :
    (ingest eng clk true raw db).1.normalized_events = db.normalized_events := by
  rw [ingest_fault]

/-- C4 as stated fails: for the declared amount `"abc"` the amount of `normalizeEvent` is
`NaN`, and the normalized row holds NULL, which a row object gives back as `null`, not as
the number of the normalized event. -/
theorem ingest_ok_nan_amount_stored_null :
    (normalizeEvent referenceEngine (sampleRaw "client_A" "sales" "abc" "2024-01-01")).amount
      = .nan ∧
    (ingest referenceEngine sampleClock false (sampleRaw "client_A" "sales" "abc" "2024-01-01")
        Store.empty).1.normalized_events.map (fun r => r.amount) = [.null] ∧
    (ingest referenceEngine sampleClock false (sampleRaw "client_A" "sales" "abc" "2024-01-01")
        Store.empty).1.normalized_events.map (fun r => r.amount.toJsVal) ≠
      [.num (normalizeEvent referenceEngine
        (sampleRaw "client_A" "sales" "abc" "2024-01-01")).amount] := by
  decide!

/-- C4 amended: for every raw input, an ingest attempt without fault injection on the
empty store answers `processed` and leaves exactly one raw row, with the source and the
serialized body supplied, status NORMALIZED and no error message, and exactly one
normalized row, holding the client_id, metric and timestamp of `normalizeEvent raw`, its
amount as the INTEGER column stores it (read back as the same number, or as `null` when
the amount is `NaN`), and the fingerprint of that event.  For the scenario input the
normalized row has client_id `client_A`, metric `sales`, amount 1200 and timestamp
`2024-01-01T00:00:00.000Z`. -/
theorem ingest_ok_on_empty (eng : Engine) (clk : Clock) (raw : Raw) :
    ingest eng clk false raw Store.empty =
      (⟨[⟨1, raw.source, raw.json, "NORMALIZED", none, clk.rawInsert⟩], 1,
        [⟨1, fingerprint (normalizeEvent eng raw), (normalizeEvent eng raw).client_id,
          (normalizeEvent eng raw).metric, bindAmount (normalizeEvent eng raw).amount,
          (normalizeEvent eng raw).timestamp, clk.normalizedInsert⟩], 1⟩, .processed) ∧
    (bindAmount (normalizeEvent eng raw).amount).toJsVal =
      (match (normalizeEvent eng raw).amount with
       | .nan => .null
       | .inf neg => .num (.inf neg)
       | .fin m k => .num (normDyadic m k)) ∧
    normalizeEvent referenceEngine scenarioRaw =
      ⟨"client_A", "sales", .fin 1200 0, some "2024-01-01T00:00:00.000Z"⟩ ∧
    (ingest referenceEngine sampleClock false scenarioRaw Store.empty).1.normalized_events =
      [⟨1, "b770e2330c66d2a15b7a883d34f27b52ec0dce39e18f94bea9cdc2b0e8048610", "client_A",
        "sales", .int 1200, some "2024-01-01T00:00:00.000Z", sampleClock.normalizedInsert⟩] := by
  refine ⟨rfl, bindAmount_toJsVal _, by decide, by decide!⟩

/-- C5: in every store reachable from the empty store by completed ingest attempts, with
or without fault injection, every raw row has a terminal status (NORMALIZED or FAILED,
never RECEIVED) and has an error message only when its status is FAILED. -/
theorem status_consistent (db : Store) (h : Reachable db) :
    ∀ r ∈ db.raw_events,
      (r.status = "NORMALIZED" ∨ r.status = "FAILED") ∧ r.status ≠ "RECEIVED" ∧
      (r.error_message ≠ none → r.status = "FAILED") := by
  intro r hr
  obtain ⟨hs, he⟩ := allNormalized_of_reachable db h r hr
  refine ⟨Or.inl hs, ?_, fun hne => absurd he hne⟩
  rw [hs]
  decide

/-- C5 at the store left by a successful attempt followed by a fault-injected one. -/
theorem status_consistent_witness :
    Reachable (ingest referenceEngine sampleClock true scenarioRaw
      (ingest referenceEngine sampleClock false scenarioRaw Store.empty).1).1 ∧
    ∀ r ∈ (ingest referenceEngine sampleClock true scenarioRaw
      (ingest referenceEngine sampleClock false scenarioRaw Store.empty).1).1.raw_events,
      (r.status = "NORMALIZED" ∨ r.status = "FAILED") ∧ r.status ≠ "RECEIVED" ∧
      (r.error_message ≠ none → r.status = "FAILED") :=
  ⟨Reachable.step _ _ _ _ (Reachable.step _ _ _ _ Reachable.empty),
   status_consistent _ (Reachable.step _ _ _ _ (Reachable.step _ _ _ _ Reachable.empty))⟩

/-- C2: for every store with pairwise distinct fingerprints (the UNIQUE constraint of the
schema) and every two raw inputs with the same normalized tuple, ingesting both without
fault injection leaves exactly one normalized row with the fingerprint of the tuple, the
normalized relation after the second attempt is the one after the first, and the second
attempt is answered `processed` and adds its own raw row, with status NORMALIZED and a
rowid above those of the rows before it. -/
theorem ingest_idempotent (eng : Engine) (clk1 clk2 : Clock) (raw1 raw2 : Raw) (db : Store)
    (huniq : UniqueFingerprints db)
    (hsame : normalizeEvent eng raw1 = normalizeEvent eng raw2) :
    (ingest eng clk2 false raw2 (ingest eng clk1 false raw1 db).1).1.normalized_events =
      (ingest eng clk1 false raw1 db).1.normalized_events ∧
    ((ingest eng clk2 false raw2 (ingest eng clk1 false raw1 db).1).1.normalized_events.filter
      (fun r => r.event_fingerprint = fingerprint (normalizeEvent eng raw1))).length = 1 ∧
    (ingest eng clk2 false raw2 (ingest eng clk1 false raw1 db).1).2 = .processed ∧
    ∃ id, (∀ r ∈ (ingest eng clk1 false raw1 db).1.raw_events, r.id < id) ∧
      (ingest eng clk2 false raw2 (ingest eng clk1 false raw1 db).1).1.raw_events =
        (ingest eng clk1 false raw1 db).1.raw_events ++
          [⟨id, raw2.source, raw2.json, "NORMALIZED", none, clk2.rawInsert⟩] := by
  have hmem := ingest_ok_has_fingerprint eng clk1 raw1 db
  have hkeep : (ingest eng clk2 false raw2 (ingest eng clk1 false raw1 db).1).1.normalized_events =
      (ingest eng clk1 false raw1 db).1.normalized_events := by
    rw [ingest_ok_normalized eng clk2 raw2, ← hsame, if_pos]
    rw [List.any_eq_true]
    obtain ⟨r, hr, hfp⟩ := List.mem_map.mp hmem
    exact ⟨r, hr, by simpa using hfp⟩
  refine ⟨hkeep, ?_, ingest_ok_response _ _ _ _, _, raw_id_lt_next _, ingest_ok_raw _ _ _ _⟩
  rw [hkeep]
  exact filter_key_length_one (fun r : NormalizedEvent => r.event_fingerprint)
    (ingest eng clk1 false raw1 db).1.normalized_events _
    (ingest_ok_unique eng clk1 raw1 db huniq) hmem

/-- C2 on the empty store, for the scenario input and a second body that spells the same
event differently (amount `1200.0`, timestamp `2024-01-01T00:00:00.000Z`). -/
theorem ingest_idempotent_witness :
    UniqueFingerprints Store.empty ∧
    normalizeEvent referenceEngine scenarioRaw =
      normalizeEvent referenceEngine
        (sampleRaw "client_A" "sales" "1200.0" "2024-01-01T00:00:00.000Z") ∧
    ((ingest referenceEngine sampleClock false
        (sampleRaw "client_A" "sales" "1200.0" "2024-01-01T00:00:00.000Z")
        (ingest referenceEngine sampleClock false scenarioRaw Store.empty).1).1.normalized_events.filter
      (fun r => r.event_fingerprint =
        fingerprint (normalizeEvent referenceEngine scenarioRaw))).length = 1 :=
  ⟨List.nodup_nil, by decide,
   (ingest_idempotent referenceEngine sampleClock sampleClock scenarioRaw
      (sampleRaw "client_A" "sales" "1200.0" "2024-01-01T00:00:00.000Z") Store.empty
      List.nodup_nil (by decide)).2.1⟩

/-! ## The normalizer: claims C6 and C7 -/

/-- C6 as stated fails: a declared amount `"abc"` cannot be coerced to a number, and the
amount returned is `NaN`, which is neither 0 nor an integer; a declared amount `"12.5"`
gives 12.5, not an integer. -/
theorem normalize_amount_not_integer :
    stringToNumber "abc" = .nan ∧
    (normalizeEvent referenceEngine (sampleRaw "client_A" "sales" "abc" "2024-01-01")).amount
      = .nan ∧
    (normalizeEvent referenceEngine (sampleRaw "client_A" "sales" "abc" "2024-01-01")).amount
      ≠ .fin 0 0 ∧
    (normalizeEvent referenceEngine
      (sampleRaw "client_A" "sales" "abc" "2024-01-01")).amount.isInteger = false ∧
    (normalizeEvent referenceEngine (sampleRaw "client_A" "sales" "12.5" "2024-01-01")).amount
      = .fin 25 1 ∧
    (normalizeEvent referenceEngine
      (sampleRaw "client_A" "sales" "12.5" "2024-01-01")).amount.isInteger = false := by
  decide

/-- C6 amended: the amount returned by `normalizeEvent` is `Number(amount || 0)`, a number
and not necessarily an integer: 0 when the declared amount is absent, null, `false`, zero
or the empty string, 1 when it is `true`, the number itself when it is a non-zero number,
and the value `StringToNumber` gives a non-empty string, which is 1200 for `"1200"` and
12.5 for `"12.5"`. -/
theorem normalize_amount (eng : Engine) (raw : Raw) :
    (normalizeEvent eng raw).amount =
      (match raw.amount with
       | .undefined => .fin 0 0
       | .null => .fin 0 0
       | .bool b => if b then .fin 1 0 else .fin 0 0
       | .num n => if truthy (.num n) then n else .fin 0 0
       | .str s => if s = "" then .fin 0 0 else stringToNumber s) ∧
    (raw.payload = none → (normalizeEvent eng raw).amount = .fin 0 0) ∧
    stringToNumber "1200" = .fin 1200 0 ∧ stringToNumber "12.5" = .fin 25 1 := by
  refine ⟨?_, ?_, by decide, by decide⟩
  · simp only [normalizeEvent, jsOr]
    cases h : raw.amount with
    | undefined => simp [truthy, toNumber]
    | null => simp [truthy, toNumber]
    | bool b => cases b <;> simp [truthy, toNumber]
    | num n => by_cases ht : truthy (.num n) = true <;> simp [ht, toNumber]
    | str s => by_cases hs : s = "" <;> simp [truthy, toNumber, hs]
  · intro hp
    simp [normalizeEvent, jsOr, Raw.amount, hp, truthy, toNumber]

/-- C6 amended, at a body without payload and at the scenario input. -/
theorem normalize_amount_witness :
    (normalizeEvent referenceEngine ⟨some "client_A", none, "\x7b\"source\":\"client_A\"\x7d"⟩).amount
      = .fin 0 0 ∧
    (normalizeEvent referenceEngine scenarioRaw).amount = .fin 1200 0 :=
  ⟨(normalize_amount referenceEngine
      ⟨some "client_A", none, "\x7b\"source\":\"client_A\"\x7d"⟩).2.1 rfl,
   by decide⟩

/-- C7 as stated fails: a declared timestamp `null` is read by `new Date(null)` as the
time value 0, and the timestamp returned is the epoch, not null. -/
theorem normalize_null_timestamp_is_epoch :
    (normalizeEvent referenceEngine
      ⟨some "client_A", some ⟨some "sales", .str "1200", .null⟩,
       "\x7b\"source\":\"client_A\",\"payload\":\x7b\"metric\":\"sales\",\"amount\":\"1200\",\"timestamp\":null\x7d\x7d"⟩).timestamp
      = some "1970-01-01T00:00:00.000Z" := by
  decide

/-- C7 amended: for every raw input whose declared timestamp is absent (no payload, or no
such member) or is a string that `Date.parse` does not read as a valid date-time,
`normalizeEvent` returns a record (it is a total function) whose timestamp is null. -/
theorem normalize_timestamp_null (eng : Engine) (raw : Raw)
    (h : raw.timestamp = .undefined ∨ ∃ s, raw.timestamp = .str s ∧ dateParse eng s = none) :
    (normalizeEvent eng raw).timestamp = none := by
  rcases h with h | ⟨s, h, hs⟩
  · simp [normalizeEvent, safeDate, newDate, h, toNumber, timeClip]
  · simp [normalizeEvent, safeDate, newDate, h, hs]

/-- C7 amended, at the malformed timestamp `2024/13/40`. -/
theorem normalize_timestamp_null_witness :
    dateParse referenceEngine "2024/13/40" = none ∧
    dateParse referenceEngine "" = none ∧
    (normalizeEvent referenceEngine
      (sampleRaw "client_A" "sales" "1200" "2024/13/40")).timestamp = none :=
  ⟨by decide, by decide,
   normalize_timestamp_null referenceEngine (sampleRaw "client_A" "sales" "1200" "2024/13/40")
     (Or.inr ⟨"2024/13/40", rfl, by decide⟩)⟩

/-! ## Lemmas on the printing of numbers and on UTF-8 -/

theorem ite_ne_char {c : Prop} [Decidable c] {a b x : Char} (ha : a ≠ x) (hb : b ≠ x) :
    (if c then a else b) ≠ x := by
  split <;> assumption

/-- A character outside the digit alphabet is not a digit character. -/
theorem digitChar_ne (x : Char) (hx : x ∉ "0123456789abcdef*".toList) (n : Nat) :
    Nat.digitChar n ≠ x := by
  unfold Nat.digitChar
  repeat (refine ite_ne_char (fun h => hx (h ▸ by decide)) ?_)
  exact fun h => hx (h ▸ by decide)

theorem toDigitsCore_not_mem (x : Char) (hx : x ∉ "0123456789abcdef*".toList) (b : Nat) :
    ∀ (fuel n : Nat) (acc : List Char), x ∉ acc → x ∉ Nat.toDigitsCore b fuel n acc := by
  intro fuel
  induction fuel with
  | zero => intro n acc h; simpa [Nat.toDigitsCore] using h
  | succ f ih =>
    intro n acc h
    have hc : x ∉ Nat.digitChar (n % b) :: acc := by
      intro hm
      rcases List.mem_cons.mp hm with h1 | h1
      · exact digitChar_ne x hx _ h1.symm
      · exact h h1
    simp only [Nat.toDigitsCore]
    split
    · exact hc
    · exact ih _ _ hc

theorem decDigits_not_mem (x : Char) (hx : x ∉ "0123456789abcdef*".toList) (n : Nat) :
    x ∉ decDigits n := by
  unfold decDigits Nat.toDigits
  exact toDigitsCore_not_mem x hx 10 _ _ _ (by simp)

theorem digitChar_value (k : Nat) (hk : k < 10) : (Nat.digitChar k).toNat - 48 = k := by
  interval_cases k <;> rfl

theorem foldl_toDigitsCore : ∀ (fuel n : Nat) (acc : List Char), n < fuel →
    (Nat.toDigitsCore 10 fuel n acc).foldl (fun a c => 10 * a + (c.toNat - 48)) 0 =
      acc.foldl (fun a c => 10 * a + (c.toNat - 48)) n := by
  intro fuel
  induction fuel with
  | zero => intro n acc h; omega
  | succ f ih =>
    intro n acc h
    have hd := digitChar_value (n % 10) (Nat.mod_lt _ (by decide))
    simp only [Nat.toDigitsCore]
    split
    · rename_i h0
      simp only [List.foldl_cons, hd]
      congr 1
      omega
    · rename_i h0
      rw [ih (n / 10) _ (by omega)]
      simp only [List.foldl_cons, hd]
      congr 1
      omega

/-- The decimal digits of a number denote it. -/
theorem digitsNat_decDigits (n : Nat) : digitsNat (decDigits n) = n := by
  unfold digitsNat decDigits Nat.toDigits
  rw [foldl_toDigitsCore (n + 1) n [] (by omega)]
  rfl

/-- Equal fractions have equal lowest terms. -/
theorem lowest_terms_eq (p q p' q' : Nat) (hq : 0 < q) (hq' : 0 < q')
    (h : p * q' = p' * q) :
    p / Nat.gcd p q = p' / Nat.gcd p' q' ∧ q / Nat.gcd p q = q' / Nat.gcd p' q' := by
  have hn : Rat.normalize (p : Int) q (Nat.pos_iff_ne_zero.mp hq) =
      Rat.normalize (p' : Int) q' (Nat.pos_iff_ne_zero.mp hq') := by
    rw [Rat.normalize_eq_iff]
    exact_mod_cast h
  simp only [Rat.normalize_eq, Rat.mk'.injEq, Int.natAbs_ofNat] at hn
  obtain ⟨h1, h2⟩ := hn
  refine ⟨?_, h2⟩
  have h1' : ((p / Nat.gcd p q : Nat) : Int) = ((p' / Nat.gcd p' q' : Nat) : Int) := by
    simpa [Int.ofNat_ediv] using h1
  exact_mod_cast h1'

/-- The rounding of a fraction depends on its value only. -/
theorem roundDouble_congr (neg : Bool) (p q p' q' : Nat) (hq : 0 < q) (hq' : 0 < q')
    (h : p * q' = p' * q) : roundDouble neg p q = roundDouble neg p' q' := by
  obtain ⟨h1, h2⟩ := lowest_terms_eq p q p' q' hq hq' h
  have hp : p = 0 ↔ p' = 0 := by
    constructor
    · intro hp
      rw [hp, Nat.zero_mul] at h
      rcases Nat.mul_eq_zero.mp h.symm with h0 | h0
      · exact h0
      · omega
    · intro hp
      rw [hp, Nat.zero_mul] at h
      rcases Nat.mul_eq_zero.mp h with h0 | h0
      · exact h0
      · omega
  unfold roundDouble
  by_cases h0 : p = 0
  · have h0' := hp.mp h0
    simp [h0, h0']
  · have h0' : p' ≠ 0 := fun hh => h0 (hp.mpr hh)
    have hq0 : q ≠ 0 := by omega
    have hq0' : q' ≠ 0 := by omega
    simp only [h0, hq0, h0', hq0', or_self, if_false, h1, h2]

/-- A decimal with its trailing zeros moved into the exponent denotes the same double. -/
theorem decimalToDouble_shift (neg : Bool) (c t : Nat) (e : Int) :
    decimalToDouble neg (c * 10 ^ t) e = decimalToDouble neg c (e + t) := by
  unfold decimalToDouble
  have hpos : ∀ n : Nat, 0 < 10 ^ n := fun n => by positivity
  by_cases he : 0 ≤ e
  · have he' : 0 ≤ e + (t : Int) := by omega
    rw [if_pos he, if_pos he']
    have : (e + (t : Int)).toNat = t + e.toNat := by omega
    rw [this, Nat.pow_add, Nat.mul_assoc]
  · rw [if_neg he]
    by_cases he' : 0 ≤ e + (t : Int)
    · rw [if_pos he']
      apply roundDouble_congr _ _ _ _ _ (hpos _) (by decide)
      have : t = (e + (t : Int)).toNat + (-e).toNat := by omega
      rw [Nat.mul_one]
      conv_lhs => rw [this]
      rw [Nat.pow_add, Nat.mul_assoc]
    · rw [if_neg he']
      apply roundDouble_congr _ _ _ _ _ (hpos _) (hpos _)
      have : (-e).toNat = t + (-(e + (t : Int))).toNat := by omega
      rw [this, Nat.pow_add, Nat.mul_assoc]

/-- A candidate decimal is not zero and rounds to the target. -/
theorem digitsCandidate_sound (x : JsNum) (p q : Nat) (n0 : Int) (k c : Nat) (e : Int)
    (h : digitsCandidate x p q n0 k = some (c, e)) :
    c ≠ 0 ∧ decimalToDouble false c e = x := by
  unfold digitsCandidate at h
  simp only at h
  generalize (if 0 ≤ n0 - (k : Int) then p else p * 10 ^ (-(n0 - (k : Int))).toNat) = N at h
  generalize (if 0 ≤ n0 - (k : Int) then q * 10 ^ (n0 - (k : Int)).toNat else q) = D at h
  split_ifs at h with h1 h2 h3 h4 <;>
    simp only [Option.some.injEq, Prod.mk.injEq] at h <;>
    obtain ⟨hc, he⟩ := h <;> subst hc <;> subst he <;>
    simp only [Bool.and_eq_true, decide_eq_true_eq] at * <;>
    first
    | exact ⟨h1.1.1, h1.1.2⟩
    | exact ⟨Nat.succ_ne_zero _, h1.2⟩
    | exact h3
    | exact ⟨Nat.succ_ne_zero _, h4⟩

theorem shortestDigits_sound (x : JsNum) (p q : Nat) (n0 : Int) :
    ∀ (fuel k c : Nat) (e : Int), shortestDigits x p q n0 fuel k = some (c, e) →
      c ≠ 0 ∧ decimalToDouble false c e = x := by
  intro fuel
  induction fuel with
  | zero => intro k c e h; simp [shortestDigits] at h
  | succ f ih =>
    intro k c e h
    simp only [shortestDigits] at h
    split at h
    · rename_i r hr
      simp only [Option.some.injEq] at h
      subst h
      exact digitsCandidate_sound x p q n0 k c e hr
    · exact ih _ _ _ h

theorem shortestDigits_isSome (x : JsNum) (p q : Nat) (n0 : Int) (k0 : Nat)
    (hk0 : (digitsCandidate x p q n0 k0).isSome = true) :
    ∀ (fuel k : Nat), k ≤ k0 → k0 < k + fuel →
      (shortestDigits x p q n0 fuel k).isSome = true := by
  intro fuel
  induction fuel with
  | zero => intro k h1 h2; omega
  | succ f ih =>
    intro k h1 h2
    simp only [shortestDigits]
    split
    · rfl
    · rename_i hnone
      by_cases hk : k = k0
      · subst hk
        rw [hnone] at hk0
        simp at hk0
      · exact ih (k + 1) (by omega) (by omega)

theorem stripZeros_spec : ∀ (fuel c : Nat) (e : Int) (s : Nat) (e1 : Int),
    stripZeros fuel c e = (s, e1) → c ≠ 0 →
      s ≠ 0 ∧ ∃ t : Nat, e1 = e + (t : Int) ∧ c = s * 10 ^ t := by
  intro fuel
  induction fuel with
  | zero =>
    intro c e s e1 h hc
    simp only [stripZeros, Prod.mk.injEq] at h
    obtain ⟨h1, h2⟩ := h
    subst h1; subst h2
    exact ⟨hc, 0, by simp, by simp⟩
  | succ f ih =>
    intro c e s e1 h hc
    simp only [stripZeros] at h
    split_ifs at h with hz
    · have hc' : c / 10 ≠ 0 := by omega
      obtain ⟨hs, t, ht1, ht2⟩ := ih _ _ _ _ h hc'
      refine ⟨hs, t + 1, by push_cast; omega, ?_⟩
      have : c = c / 10 * 10 := by omega
      rw [this, ht2, Nat.pow_succ, Nat.mul_assoc]
    · simp only [Prod.mk.injEq] at h
      obtain ⟨h1, h2⟩ := h
      subst h1; subst h2
      exact ⟨hc, 0, by simp, by simp⟩

theorem select_isSome (okLo okHi preferLo : Bool) (lo hi : Nat) (e : Int) (h : okLo = true) :
    (if (okLo && okHi) = true then some (if preferLo = true then lo else hi, e)
      else if okLo = true then some (lo, e)
      else if okHi = true then some (hi, e)
      else none).isSome = true := by
  cases okHi <;> simp [h]

/-- The exact decimal expansion of a double is a candidate: at a digit count that reaches
below the last binary digit, the value itself is a decimal with that many digits. -/
theorem digitsCandidate_exact (x : JsNum) (m j : Nat) (hm : 0 < m) (n0 : Int) (k0 : Nat)
    (hd : roundDouble false m (2 ^ j) = x) (hk : n0 - (k0 : Int) ≤ -(j : Int)) :
    (digitsCandidate x m (2 ^ j) n0 k0).isSome = true := by
  unfold digitsCandidate
  simp only
  apply select_isSome
  simp only [Bool.and_eq_true, decide_eq_true_eq]
  by_cases he : 0 ≤ n0 - (k0 : Int)
  · have hj : j = 0 := by omega
    have he0 : (n0 - (k0 : Int)).toNat = 0 := by omega
    subst hj
    simp only [if_pos he, he0, pow_zero, Nat.mul_one, Nat.div_one]
    refine ⟨by omega, ?_⟩
    unfold decimalToDouble
    rw [if_pos he, he0, pow_zero, Nat.mul_one]
    simpa using hd
  · simp only [if_neg he]
    obtain ⟨a, ha⟩ : ∃ a : Nat, (-(n0 - (k0 : Int))).toNat = j + a := ⟨(-(n0 - (k0 : Int))).toNat - j, by omega⟩
    have hdvd : 2 ^ j ∣ m * 10 ^ (-(n0 - (k0 : Int))).toNat := by
      rw [ha, Nat.pow_add]
      have : (10 : Nat) ^ j = 2 ^ j * 5 ^ j := by rw [← Nat.mul_pow]
      rw [this]
      exact ⟨m * (5 ^ j * 10 ^ a), by ring⟩
    have hmul : m * 10 ^ (-(n0 - (k0 : Int))).toNat / 2 ^ j * 2 ^ j =
        m * 10 ^ (-(n0 - (k0 : Int))).toNat := Nat.div_mul_cancel hdvd
    have hpos : 0 < m * 10 ^ (-(n0 - (k0 : Int))).toNat := by positivity
    constructor
    · intro h0
      rw [h0, Nat.zero_mul] at hmul
      omega
    · unfold decimalToDouble
      rw [if_neg he, ← hd]
      exact roundDouble_congr _ _ _ _ _ (by positivity) (by positivity) hmul

theorem normDyadic_idem : ∀ (j : Nat) (a m : Int) (k : Nat),
    normDyadic a j = .fin m k → normDyadic m k = .fin m k := by
  intro j
  induction j with
  | zero =>
    intro a m k h
    simp only [normDyadic, JsNum.fin.injEq] at h
    obtain ⟨h1, h2⟩ := h
    subst h1; subst h2
    rfl
  | succ j ih =>
    intro a m k h
    simp only [normDyadic] at h
    split_ifs at h with hpar
    · exact ih _ _ _ h
    · simp only [JsNum.fin.injEq] at h
      obtain ⟨h1, h2⟩ := h
      subst h1; subst h2
      simp only [normDyadic, if_neg hpar]

/-- A finite result of rounding is in canonical form. -/
theorem roundDouble_canonical (neg : Bool) (p q : Nat) (m : Int) (k : Nat)
    (h : roundDouble neg p q = .fin m k) : normDyadic m k = .fin m k := by
  unfold roundDouble at h
  split_ifs at h with h0
  · simp only [JsNum.fin.injEq] at h
    obtain ⟨h1, h2⟩ := h
    subst h1; subst h2
    rfl
  · unfold roundFraction at h
    simp only at h
    split_ifs at h <;>
      first
      | exact normDyadic_idem _ _ _ _ h
      | (simp only [JsNum.fin.injEq] at h
         obtain ⟨_, h4⟩ := h
         subst h4
         rfl)

/-- The string of a positive double is the layout of a non-zero decimal that rounds to
it. -/
theorem positiveToString_spec (m k : Nat) (hm : 0 < m)
    (hd : roundDouble false m (2 ^ k) = .fin (m : Int) k) :
    ∃ (s : Nat) (e1 : Int), s ≠ 0 ∧ decimalToDouble false s e1 = .fin (m : Int) k ∧
      positiveToString m k = layoutDigits (decDigits s) (e1 + ((decDigits s).length : Int)) := by
  have hcanon := roundDouble_canonical _ _ _ _ _ hd
  have hsome : (shortestDigits (.fin (m : Int) k) m (2 ^ k) (decimalExponent m (2 ^ k))
      ((decimalExponent m (2 ^ k) + (k : Int)).toNat + 17) 1).isSome = true := by
    apply shortestDigits_isSome _ _ _ _
      (max 1 (decimalExponent m (2 ^ k) + (k : Int)).toNat)
    · exact digitsCandidate_exact _ m k hm _ _ hd (by omega)
    · omega
    · omega
  obtain ⟨⟨c, e⟩, hce⟩ := Option.isSome_iff_exists.mp hsome
  obtain ⟨hc, hround⟩ := shortestDigits_sound _ _ _ _ _ _ _ _ hce
  rcases hstrip : stripZeros (decDigits c).length c e with ⟨s, e1⟩
  obtain ⟨hs, t, ht1, ht2⟩ := stripZeros_spec _ _ _ _ _ hstrip hc
  refine ⟨s, e1, hs, ?_, ?_⟩
  · rw [ht1, ← decimalToDouble_shift, ← ht2]
    exact hround
  · unfold positiveToString
    simp only [hcanon, hce, hstrip]

theorem takeWhile_all {α : Type} (p : α → Bool) : ∀ (l : List α), (∀ c ∈ l, p c = true) →
    l.takeWhile p = l := by
  intro l
  induction l with
  | nil => intro _; rfl
  | cons a rest ih =>
    intro h
    simp only [List.takeWhile_cons, h a (List.mem_cons_self _ _), if_true]
    rw [ih (fun c hc => h c (List.mem_cons_of_mem _ hc))]

theorem dropWhile_all {α : Type} (p : α → Bool) : ∀ (l : List α), (∀ c ∈ l, p c = true) →
    l.dropWhile p = [] := by
  intro l
  induction l with
  | nil => intro _; rfl
  | cons a rest ih =>
    intro h
    simp only [List.dropWhile_cons, h a (List.mem_cons_self _ _), if_true]
    exact ih (fun c hc => h c (List.mem_cons_of_mem _ hc))

theorem takeWhile_stop {α : Type} (p : α → Bool) (x : α) (r : List α) (hx : p x = false) :
    ∀ (l : List α), (∀ c ∈ l, p c = true) → (l ++ x :: r).takeWhile p = l := by
  intro l
  induction l with
  | nil => intro _; simp [List.takeWhile_cons, hx]
  | cons a rest ih =>
    intro h
    simp only [List.cons_append, List.takeWhile_cons, h a (List.mem_cons_self _ _), if_true]
    rw [ih (fun c hc => h c (List.mem_cons_of_mem _ hc))]

theorem dropWhile_stop {α : Type} (p : α → Bool) (x : α) (r : List α) (hx : p x = false) :
    ∀ (l : List α), (∀ c ∈ l, p c = true) → (l ++ x :: r).dropWhile p = x :: r := by
  intro l
  induction l with
  | nil => intro _; simp [List.dropWhile_cons, hx]
  | cons a rest ih =>
    intro h
    simp only [List.cons_append, List.dropWhile_cons, h a (List.mem_cons_self _ _), if_true]
    exact ih (fun c hc => h c (List.mem_cons_of_mem _ hc))

theorem foldl_digits (l : List Char) : ∀ acc : Nat,
    l.foldl (fun a c => 10 * a + (c.toNat - 48)) acc =
      acc * 10 ^ l.length + l.foldl (fun a c => 10 * a + (c.toNat - 48)) 0 := by
  induction l with
  | nil => intro acc; simp
  | cons c rest ih =>
    intro acc
    simp only [List.foldl_cons, List.length_cons]
    rw [ih (10 * acc + (c.toNat - 48)), ih (10 * 0 + (c.toNat - 48))]
    ring

theorem digitsNat_append (a b : List Char) :
    digitsNat (a ++ b) = digitsNat a * 10 ^ b.length + digitsNat b := by
  unfold digitsNat
  rw [List.foldl_append, foldl_digits b]

theorem digitsNat_zeros (j : Nat) : digitsNat (List.replicate j '0') = 0 := by
  induction j with
  | zero => rfl
  | succ j ih =>
    have : List.replicate (j + 1) '0' = ['0'] ++ List.replicate j '0' := rfl
    have h0 : digitsNat ['0'] = 0 := by decide
    rw [this, digitsNat_append, ih, h0]
    simp

/-- The decimal digits of a number are digit characters. -/
theorem decDigits_isDigit (n : Nat) : ∀ d ∈ decDigits n, d.isDigit = true := by
  intro d hd
  unfold decDigits Nat.toDigits at hd
  have key : ∀ (fuel m : Nat) (acc : List Char), (∀ x ∈ acc, x.isDigit = true) →
      ∀ x ∈ Nat.toDigitsCore 10 fuel m acc, x.isDigit = true := by
    intro fuel
    induction fuel with
    | zero => intro m acc h x hx; exact h x (by simpa [Nat.toDigitsCore] using hx)
    | succ f ih =>
      intro m acc h x hx
      have hdc : (Nat.digitChar (m % 10)).isDigit = true := by
        have : m % 10 < 10 := Nat.mod_lt _ (by decide)
        interval_cases (m % 10) <;> rfl
      have hacc : ∀ y ∈ Nat.digitChar (m % 10) :: acc, y.isDigit = true := by
        intro y hy
        rcases List.mem_cons.mp hy with h1 | h1
        · rw [h1]; exact hdc
        · exact h y h1
      simp only [Nat.toDigitsCore] at hx
      split at hx
      · exact hacc x hx
      · exact ih _ _ hacc x hx
  exact key _ _ [] (by simp) d hd

/-- A digit character is neither the exponent mark nor the decimal point nor a sign. -/
theorem isDigit_ne (c x : Char) (hc : c.isDigit = true) (hx : x.isDigit = false) : c ≠ x := by
  intro h
  rw [h, hx] at hc
  cases hc

theorem digit_not_e (c : Char) (hc : c.isDigit = true) : (decide (c ≠ 'e')) = true := by
  simpa using isDigit_ne c 'e' hc (by decide)

theorem digit_not_point (c : Char) (hc : c.isDigit = true) : (decide (c ≠ '.')) = true := by
  simpa using isDigit_ne c '.' hc (by decide)

/-- A string of digits reads as its number, with exponent 0. -/
theorem readDecimal_digits (l : List Char) (hl : ∀ c ∈ l, c.isDigit = true) :
    readDecimal l = (digitsNat l, 0) := by
  have he : ∀ c ∈ l, (decide (c ≠ 'e')) = true := fun c hc => digit_not_e c (hl c hc)
  have hp : ∀ c ∈ l, (decide (c ≠ '.')) = true := fun c hc => digit_not_point c (hl c hc)
  unfold readDecimal
  simp only [takeWhile_all _ l he, dropWhile_all _ l he, takeWhile_all _ l hp,
    dropWhile_all _ l hp, List.drop_nil, List.append_nil, List.length_nil]
  simp

/-- Digits, a point and digits read as the number of all the digits, with the number of
fraction digits as negative exponent. -/
theorem readDecimal_point (ip fp : List Char) (hi : ∀ c ∈ ip, c.isDigit = true)
    (hf : ∀ c ∈ fp, c.isDigit = true) :
    readDecimal (ip ++ '.' :: fp) = (digitsNat (ip ++ fp), -(fp.length : Int)) := by
  have hall : ∀ c ∈ ip ++ '.' :: fp, (decide (c ≠ 'e')) = true := by
    intro c hc
    rcases List.mem_append.mp hc with h | h
    · exact digit_not_e c (hi c h)
    · rcases List.mem_cons.mp h with h1 | h1
      · rw [h1]; decide
      · exact digit_not_e c (hf c h1)
  have hp : ∀ c ∈ ip, (decide (c ≠ '.')) = true := fun c hc => digit_not_point c (hi c hc)
  unfold readDecimal
  simp only [takeWhile_all _ _ hall, dropWhile_all _ _ hall,
    takeWhile_stop _ '.' fp (by decide) ip hp, dropWhile_stop _ '.' fp (by decide) ip hp,
    List.drop_nil, List.drop_succ_cons, List.drop_zero]
  simp

/-- A mantissa followed by an exponent part reads as the mantissa with the exponent
added. -/
theorem readDecimal_exponent (mant : List Char) (hm : ∀ c ∈ mant, (decide (c ≠ 'e')) = true)
    (ex : Int) (xs : List Char)
    (hx : xs = (if ex < 0 then '-' else '+') :: decDigits ex.natAbs) :
    readDecimal (mant ++ 'e' :: xs) = ((readDecimal mant).1, (readDecimal mant).2 + ex) := by
  have hval := digitsNat_decDigits ex.natAbs
  unfold readDecimal
  simp only [takeWhile_all _ _ hm, dropWhile_all _ _ hm,
    takeWhile_stop _ 'e' xs (by decide) mant hm, dropWhile_stop _ 'e' xs (by decide) mant hm,
    List.drop_nil, List.drop_succ_cons, List.drop_zero]
  subst hx
  by_cases hneg : ex < 0
  · simp only [if_pos hneg, hval, Prod.mk.injEq, true_and]
    omega
  · simp only [if_neg hneg, hval, Prod.mk.injEq, true_and]
    omega

theorem replicate_zero_isDigit (j : Nat) : ∀ c ∈ List.replicate j '0', c.isDigit = true := by
  intro c hc
  rw [(List.mem_replicate.mp hc).2]
  rfl

/-- The layout of a non-zero decimal reads back as a decimal of the same double. -/
theorem readDecimal_layout (s : Nat) (hs : s ≠ 0) (n : Int) :
    decimalToDouble false (readDecimal (layoutDigits (decDigits s) n)).1
        (readDecimal (layoutDigits (decDigits s) n)).2 =
      decimalToDouble false s (n - ((decDigits s).length : Int)) := by
  have hdig := decDigits_isDigit s
  have hval := digitsNat_decDigits s
  have htake : ∀ j, ∀ c ∈ (decDigits s).take j, c.isDigit = true :=
    fun j c hc => hdig c (List.mem_of_mem_take hc)
  have hdrop : ∀ j, ∀ c ∈ (decDigits s).drop j, c.isDigit = true :=
    fun j c hc => hdig c (List.mem_of_mem_drop hc)
  unfold layoutDigits
  simp only
  split_ifs with h1 h2 h3 h4
  · -- digits followed by zeros
    have hall : ∀ c ∈ decDigits s ++ List.replicate (n - ((decDigits s).length : Int)).toNat '0',
        c.isDigit = true := by
      intro c hc
      rcases List.mem_append.mp hc with h | h
      · exact hdig c h
      · exact replicate_zero_isDigit _ c h
    rw [readDecimal_digits _ hall, digitsNat_append, hval, digitsNat_zeros, Nat.add_zero,
      List.length_replicate, decimalToDouble_shift]
    congr 1
    omega
  · -- a point inside the digits
    rw [readDecimal_point _ _ (htake _) (hdrop _), List.take_append_drop, hval]
    congr 1
    rw [List.length_drop]
    omega
  · -- zero, point, zeros, digits
    have hall : ∀ c ∈ List.replicate (-n).toNat '0' ++ decDigits s, c.isDigit = true := by
      intro c hc
      rcases List.mem_append.mp hc with h | h
      · exact replicate_zero_isDigit _ c h
      · exact hdig c h
    have hform : '0' :: '.' :: (List.replicate (-n).toNat '0' ++ decDigits s) =
        ['0'] ++ '.' :: (List.replicate (-n).toNat '0' ++ decDigits s) := rfl
    rw [hform, readDecimal_point _ _ (by intro c hc; rw [List.mem_singleton.mp hc]; rfl) hall]
    have hnum : digitsNat (['0'] ++ (List.replicate (-n).toNat '0' ++ decDigits s)) = s := by
      have h0 : digitsNat ['0'] = 0 := by decide
      rw [digitsNat_append, digitsNat_append, h0, digitsNat_zeros, hval]
      simp
    rw [hnum]
    congr 1
    rw [List.length_append, List.length_replicate]
    push_cast
    omega
  all_goals
    rcases hds : decDigits s with _ | ⟨d, _ | ⟨d2, rest⟩⟩
    · rw [hds] at hval
      exact absurd hval.symm hs
    · rw [hds] at hval hdig
      have hm : ∀ c ∈ [d], (decide (c ≠ 'e')) = true :=
        fun c hc => digit_not_e c (hdig c hc)
      have hform : ∀ xs : List Char, d :: 'e' :: xs = [d] ++ 'e' :: xs := fun _ => rfl
      simp only [hform]
      rw [readDecimal_exponent [d] hm (n - 1) _ (by simp [h4]), readDecimal_digits [d] hdig, hval]
      congr 1
      simp
    · rw [hds] at hval hdig
      have hd1 : ∀ c ∈ [d], c.isDigit = true :=
        fun c hc => hdig c (by rw [List.mem_singleton.mp hc]; exact List.mem_cons_self _ _)
      have hrest : ∀ c ∈ d2 :: rest, c.isDigit = true :=
        fun c hc => hdig c (List.mem_cons_of_mem _ hc)
      have hm : ∀ c ∈ [d] ++ '.' :: (d2 :: rest), (decide (c ≠ 'e')) = true := by
        intro c hc
        rcases List.mem_append.mp hc with h | h
        · exact digit_not_e c (hd1 c h)
        · rcases List.mem_cons.mp h with h5 | h5
          · rw [h5]; decide
          · exact digit_not_e c (hrest c h5)
      have hform : ∀ xs : List Char, d :: '.' :: (d2 :: rest ++ 'e' :: xs) =
          ([d] ++ '.' :: (d2 :: rest)) ++ 'e' :: xs := fun _ => by simp
      simp only [hform]
      rw [readDecimal_exponent _ hm (n - 1) _ (by simp [h4]), readDecimal_point _ _ hd1 hrest]
      have : [d] ++ d2 :: rest = d :: d2 :: rest := rfl
      rw [this, hval]
      congr 1
      simp only [List.length_cons]
      push_cast
      omega

theorem not_mem_digit_alphabet (x : Char) (hx : x ∉ "0123456789abcdef*.+-".toList) :
    x ∉ "0123456789abcdef*".toList := by
  intro hm
  apply hx
  simp only [String.toList] at hm ⊢
  revert hm
  simp only [List.mem_cons]
  tauto

/-- A character that no number is written with does not occur in a layout. -/
theorem layoutDigits_not_mem (x : Char) (hx : x ∉ "0123456789abcdef*.+-".toList)
    (ds : List Char) (n : Int) (h : x ∉ ds) : x ∉ layoutDigits ds n := by
  have hx0 : x ≠ '0' := fun hh => hx (hh ▸ by decide)
  have hxp : x ≠ '.' := fun hh => hx (hh ▸ by decide)
  have hxe : x ≠ 'e' := fun hh => hx (hh ▸ by decide)
  have hxm : x ≠ '-' := fun hh => hx (hh ▸ by decide)
  have hxs : x ≠ '+' := fun hh => hx (hh ▸ by decide)
  have hdec : ∀ v, x ∉ decDigits v := fun v =>
    decDigits_not_mem x (not_mem_digit_alphabet x hx) v
  have htake : ∀ k, x ∉ ds.take k := fun k hm => h (List.mem_of_mem_take hm)
  have hdrop : ∀ k, x ∉ ds.drop k := fun k hm => h (List.mem_of_mem_drop hm)
  have htail : ∀ sg : Char, x ≠ sg → x ∉ 'e' :: sg :: decDigits (n - 1).natAbs := by
    intro sg hsg hm
    rcases List.mem_cons.mp hm with h1 | h1
    · exact hxe h1
    · rcases List.mem_cons.mp h1 with h2 | h2
      · exact hsg h2
      · exact hdec _ h2
  have hexp : ∀ sg : Char, x ≠ sg → x ∉
      (match ds with
       | [d] => d :: 'e' :: sg :: decDigits (n - 1).natAbs
       | d :: rest => d :: '.' :: (rest ++ 'e' :: sg :: decDigits (n - 1).natAbs)
       | [] => 'e' :: sg :: decDigits (n - 1).natAbs) := by
    intro sg hsg
    rcases ds with _ | ⟨d, _ | ⟨d2, rest⟩⟩
    · exact htail sg hsg
    · intro hm
      rcases List.mem_cons.mp hm with h1 | h1
      · exact h (by simp [← h1])
      · exact htail sg hsg h1
    · intro hm
      rcases List.mem_cons.mp hm with h1 | h1
      · exact h (by simp [← h1])
      · rcases List.mem_cons.mp h1 with h2 | h2
        · exact hxp h2
        · rcases List.mem_append.mp h2 with h3 | h3
          · exact h (List.mem_cons_of_mem _ h3)
          · exact htail sg hsg h3
  unfold layoutDigits
  simp only
  split_ifs
  · simp [h, List.mem_replicate, hx0]
  · simp [htake, hdrop, hxp]
  · simp [h, List.mem_replicate, hx0, hxp]
  · exact hexp '-' hxm
  · exact hexp '+' hxs

theorem positiveToString_not_mem (x : Char) (hx : x ∉ "0123456789abcdef*.+-".toList)
    (m k : Nat) : x ∉ positiveToString m k := by
  have hdec : ∀ v, x ∉ decDigits v := fun v =>
    decDigits_not_mem x (not_mem_digit_alphabet x hx) v
  unfold positiveToString
  simp only
  exact layoutDigits_not_mem x hx _ _ (hdec _)

/-- A layout of digits does not begin with a sign. -/
theorem layoutDigits_head (ds : List Char) (n : Int) (hne : ds ≠ [])
    (hd : ∀ c ∈ ds, c.isDigit = true) : ∀ rest, layoutDigits ds n ≠ '-' :: rest := by
  intro rest
  rcases ds with _ | ⟨d, tl⟩
  · exact absurd rfl hne
  · have hdd : d ≠ '-' := isDigit_ne d '-' (hd d (List.mem_cons_self _ _)) (by decide)
    unfold layoutDigits
    simp only
    split_ifs with h1 h2 h3 h4
    · intro h
      simp only [List.cons_append, List.cons.injEq] at h
      exact hdd h.1
    · obtain ⟨j, hj⟩ : ∃ j, n.toNat = j + 1 := ⟨n.toNat - 1, by omega⟩
      rw [hj]
      intro h
      simp only [List.take_succ_cons, List.cons_append, List.cons.injEq] at h
      exact hdd h.1
    · intro h
      simp only [List.cons.injEq] at h
      exact absurd h.1 (by decide)
    all_goals
      rcases tl with _ | ⟨d2, tl2⟩
      · intro h
        simp only [List.cons.injEq] at h
        exact hdd h.1
      · intro h
        simp only [List.cons.injEq] at h
        exact hdd h.1

/-- What the digits of a non-zero double read back as, for the two ways `numToString`
writes them. -/
theorem body_reads_back (a k : Nat) (ha : 0 < a)
    (hd : roundDouble false a (2 ^ k) = .fin (a : Int) k) (body : List Char)
    (hbody : body = if k = 0 ∧ a < 2 ^ 53 then decDigits a else positiveToString a k) :
    'N' ∉ body ∧ 'I' ∉ body ∧ (∀ rest, body ≠ '-' :: rest) ∧
      decimalToDouble false (readDecimal body).1 (readDecimal body).2 = .fin (a : Int) k := by
  by_cases hplain : k = 0 ∧ a < 2 ^ 53
  · rw [if_pos hplain] at hbody
    obtain ⟨hk, _⟩ := hplain
    subst hk
    subst hbody
    have hdig := decDigits_isDigit a
    refine ⟨decDigits_not_mem 'N' (by decide) a, decDigits_not_mem 'I' (by decide) a, ?_, ?_⟩
    · intro rest h
      have : '-' ∈ decDigits a := by rw [h]; exact List.mem_cons_self _ _
      exact decDigits_not_mem '-' (by decide) a this
    · rw [readDecimal_digits _ hdig, digitsNat_decDigits]
      unfold decimalToDouble
      simpa using hd
  · rw [if_neg hplain] at hbody
    obtain ⟨s, e1, hs, hround, hlay⟩ := positiveToString_spec a k ha hd
    subst hbody
    refine ⟨positiveToString_not_mem 'N' (by decide) a k,
      positiveToString_not_mem 'I' (by decide) a k, ?_, ?_⟩
    · rw [hlay]
      apply layoutDigits_head _ _ _ (decDigits_isDigit s)
      intro hnil
      have := digitsNat_decDigits s
      rw [hnil] at this
      exact hs this.symm
    · rw [hlay, readDecimal_layout s hs]
      have : e1 + ((decDigits s).length : Int) - ((decDigits s).length : Int) = e1 := by omega
      rw [this]
      exact hround

/-- A double is read back from its string. -/
theorem readNumber_numToString (x : JsNum) (hx : x.isDouble = true) :
    readNumber (numToString x).data = x := by
  cases x with
  | nan => decide
  | inf neg => cases neg <;> decide
  | fin m k =>
    simp only [JsNum.isDouble, decide_eq_true_eq] at hx
    by_cases h0 : m = 0
    · subst h0
      have hk : k = 0 := by
        have : roundDouble false 0 (2 ^ k) = .fin 0 0 := by simp [roundDouble]
        simp only [Int.natAbs_zero] at hx
        rw [this] at hx
        simp only [JsNum.fin.injEq] at hx
        exact hx.2.symm
      subst hk
      decide
    · have ha : 0 < m.natAbs := Int.natAbs_pos.mpr h0
      obtain ⟨hN, hI, hhead, hread⟩ := body_reads_back m.natAbs k ha hx _ rfl
      unfold numToString
      simp only [if_neg h0]
      by_cases hneg : m < 0
      · simp only [if_pos hneg]
        unfold readNumber
        rw [if_neg (by
          intro hm
          rcases List.mem_cons.mp hm with h1 | h1
          · exact absurd h1 (by decide)
          · exact hN h1), if_neg (by
          intro hm
          rcases List.mem_cons.mp hm with h1 | h1
          · exact absurd h1 (by decide)
          · exact hI h1)]
        simp only [hread, JsNum.negate, JsNum.fin.injEq, and_true]
        omega
      · simp only [if_neg hneg]
        unfold readNumber
        rw [if_neg hN, if_neg hI]
        split
        · rename_i body heq
          exact absurd heq (hhead _)
        · rw [hread]
          simp only [JsNum.fin.injEq, and_true]
          omega

/-- Doubles with the same string are the same double. -/
theorem numToString_injective (x y : JsNum) (hx : x.isDouble = true) (hy : y.isDouble = true)
    (h : numToString x = numToString y) : x = y := by
  rw [← readNumber_numToString x hx, ← readNumber_numToString y hy, h]

theorem decDigits_no_bar (n : Nat) : '|' ∉ decDigits n :=
  decDigits_not_mem '|' (by decide) n

theorem layoutDigits_no_bar (ds : List Char) (n : Int) (h : '|' ∉ ds) :
    '|' ∉ layoutDigits ds n :=
  layoutDigits_not_mem '|' (by decide) ds n h

theorem positiveToString_no_bar (m k : Nat) : '|' ∉ positiveToString m k :=
  positiveToString_not_mem '|' (by decide) m k

/-- The string of a Number never contains the delimiter. -/
theorem numToString_no_bar (x : JsNum) : '|' ∉ (numToString x).data := by
  cases x with
  | nan => decide
  | inf neg => cases neg <;> decide
  | fin m k =>
    unfold numToString
    simp only
    split
    · decide
    · have hbody : '|' ∉ (if k = 0 ∧ m.natAbs < 2 ^ 53 then decDigits m.natAbs
          else positiveToString m.natAbs k) := by
        split
        · exact decDigits_no_bar _
        · exact positiveToString_no_bar _ _
      split
      · intro hm
        rcases List.mem_cons.mp hm with h1 | h1
        · exact absurd h1 (by decide)
        · exact hbody h1
      · exact hbody

/-- Two delimited texts with equal joins and delimiter-free heads have equal heads and
equal tails. -/
theorem split_at_bar (a b r s : List Char) (ha : '|' ∉ a) (hb : '|' ∉ b)
    (h : a ++ '|' :: r = b ++ '|' :: s) : a = b ∧ r = s := by
  induction a generalizing b with
  | nil =>
    cases b with
    | nil => simpa using h
    | cons y b' =>
      simp only [List.nil_append, List.cons_append, List.cons.injEq] at h
      exact absurd (by simp [← h.1]) hb
  | cons x a' ih =>
    cases b with
    | nil =>
      simp only [List.nil_append, List.cons_append, List.cons.injEq] at h
      exact absurd (by simp [h.1]) ha
    | cons y b' =>
      simp only [List.cons_append, List.cons.injEq] at h
      have ha' : '|' ∉ a' := fun hm => ha (List.mem_cons_of_mem _ hm)
      have hb' : '|' ∉ b' := fun hm => hb (List.mem_cons_of_mem _ hm)
      obtain ⟨h1, h2⟩ := ih b' ha' hb' h.2
      exact ⟨by rw [h.1, h1], h2⟩

theorem fingerprintInput_data (e : CanonicalEvent) :
    (fingerprintInput e).data = e.client_id.data ++ '|' :: (e.metric.data ++ '|' ::
      ((numToString e.amount).data ++ '|' :: (nullableToString e.timestamp).data)) := by
  simp [fingerprintInput, String.data_append]

theorem utf8EncodeChar_cancel (c d : Char) (r s : List Nat)
    (h : utf8EncodeChar c ++ r = utf8EncodeChar d ++ s) : c = d ∧ r = s := by
  have hc : c.toNat < 0x110000 := by
    have := c.valid
    simp only [Char.toNat]
    rcases this with h1 | ⟨_, h2⟩
    · exact Nat.lt_trans h1 (by decide)
    · exact h2
  have hd : d.toNat < 0x110000 := by
    have := d.valid
    simp only [Char.toNat]
    rcases this with h1 | ⟨_, h2⟩
    · exact Nat.lt_trans h1 (by decide)
    · exact h2
  have key : c.toNat = d.toNat ∧ r = s := by
    unfold utf8EncodeChar at h
    simp only at h
    split_ifs at h <;>
      simp only [List.cons_append, List.nil_append, List.cons.injEq] at h <;>
      first
      | (exfalso; omega)
      | (refine ⟨by omega, ?_⟩; tauto)
  refine ⟨?_, key.2⟩
  rw [← Char.ofNat_toNat c, ← Char.ofNat_toNat d, key.1]

theorem utf8EncodeChar_ne_nil (c : Char) : utf8EncodeChar c ≠ [] := by
  unfold utf8EncodeChar
  simp only
  split_ifs <;> simp

theorem utf8_list_injective : ∀ (a b : List Char),
    a.flatMap utf8EncodeChar = b.flatMap utf8EncodeChar → a = b := by
  intro a
  induction a with
  | nil =>
    intro b h
    cases b with
    | nil => rfl
    | cons y b' =>
      simp only [List.flatMap_nil, List.flatMap_cons] at h
      exact absurd (List.append_eq_nil.mp h.symm).1 (utf8EncodeChar_ne_nil y)
  | cons x a' ih =>
    intro b h
    cases b with
    | nil =>
      simp only [List.flatMap_nil, List.flatMap_cons] at h
      exact absurd (List.append_eq_nil.mp h).1 (utf8EncodeChar_ne_nil x)
    | cons y b' =>
      simp only [List.flatMap_cons] at h
      obtain ⟨h1, h2⟩ := utf8EncodeChar_cancel x y _ _ h
      rw [h1, ih b' h2]

/-- Different strings have different UTF-8 encodings. -/
theorem utf8Encode_injective (s t : String) (h : utf8Encode s = utf8Encode t) : s = t := by
  have := utf8_list_injective s.toList t.toList h
  exact String.ext this

/-! ## The fingerprinter: claims C8 and C9 -/

/-- C8 as stated fails: the bodies `{source: "a|b", payload: {metric: "c"}}` and
`{source: "a", payload: {metric: "b|c"}}` normalize to events that differ in clientId and
in metric, yet the delimiter-joined strings are both `a|b|c|0|null`, and so are the
fingerprints equal. -/
theorem fingerprint_delimiter_collision :
    normalizeEvent referenceEngine
        ⟨some "a|b", some ⟨some "c", .undefined, .undefined⟩,
          "\x7b\"source\":\"a|b\",\"payload\":\x7b\"metric\":\"c\"\x7d\x7d"⟩ =
      ⟨"a|b", "c", .fin 0 0, none⟩ ∧
    normalizeEvent referenceEngine
        ⟨some "a", some ⟨some "b|c", .undefined, .undefined⟩,
          "\x7b\"source\":\"a\",\"payload\":\x7b\"metric\":\"b|c\"\x7d\x7d"⟩ =
      ⟨"a", "b|c", .fin 0 0, none⟩ ∧
    (⟨"a|b", "c", .fin 0 0, none⟩ : CanonicalEvent) ≠ ⟨"a", "b|c", .fin 0 0, none⟩ ∧
    fingerprintInput ⟨"a|b", "c", .fin 0 0, none⟩ = "a|b|c|0|null" ∧
    fingerprintInput ⟨"a", "b|c", .fin 0 0, none⟩ = "a|b|c|0|null" ∧
    fingerprint ⟨"a|b", "c", .fin 0 0, none⟩ = fingerprint ⟨"a", "b|c", .fin 0 0, none⟩ := by
  refine ⟨by decide, by decide, by decide, by decide, by decide, rfl⟩

/-- C8 amended: for every two canonical events whose clientId and metric do not contain
the delimiter `|` and whose timestamp is null or a string other than `null` (the amounts
being JavaScript numbers, that is doubles), a difference in at least one of the fields
clientId, metric, amount, timestamp makes the delimiter-joined strings different, and
their UTF-8 encodings, the inputs of SHA-256, different too. -/
theorem fingerprint_input_separates (e1 e2 : CanonicalEvent)
    (hc1 : '|' ∉ e1.client_id.toList) (hc2 : '|' ∉ e2.client_id.toList)
    (hm1 : '|' ∉ e1.metric.toList) (hm2 : '|' ∉ e2.metric.toList)
    (ht1 : e1.timestamp ≠ some "null") (ht2 : e2.timestamp ≠ some "null")
    (hd1 : e1.amount.isDouble = true) (hd2 : e2.amount.isDouble = true)
    (hne : e1 ≠ e2) :
    fingerprintInput e1 ≠ fingerprintInput e2 ∧
    utf8Encode (fingerprintInput e1) ≠ utf8Encode (fingerprintInput e2) := by
  have hstr : fingerprintInput e1 ≠ fingerprintInput e2 := by
    intro h
    apply hne
    have hd := congrArg String.data h
    rw [fingerprintInput_data, fingerprintInput_data] at hd
    obtain ⟨h1, hd⟩ := split_at_bar _ _ _ _ hc1 hc2 hd
    obtain ⟨h2, hd⟩ := split_at_bar _ _ _ _ hm1 hm2 hd
    obtain ⟨h3, h4⟩ := split_at_bar _ _ _ _ (numToString_no_bar _) (numToString_no_bar _) hd
    have hcl : e1.client_id = e2.client_id := String.ext h1
    have hme : e1.metric = e2.metric := String.ext h2
    have ham : e1.amount = e2.amount :=
      numToString_injective _ _ hd1 hd2 (String.ext h3)
    have hts : e1.timestamp = e2.timestamp := by
      have h5 : nullableToString e1.timestamp = nullableToString e2.timestamp := String.ext h4
      cases ht : e1.timestamp with
      | none =>
        cases ht' : e2.timestamp with
        | none => rfl
        | some t =>
          rw [ht, ht'] at h5
          simp only [nullableToString] at h5
          exact absurd (by rw [ht', ← h5]) ht2
      | some s =>
        cases ht' : e2.timestamp with
        | none =>
          rw [ht, ht'] at h5
          simp only [nullableToString] at h5
          exact absurd (by rw [ht, h5]) ht1
        | some t =>
          rw [ht, ht'] at h5
          simp only [nullableToString] at h5
          rw [h5]
    cases e1; cases e2
    simp only [CanonicalEvent.mk.injEq]
    exact ⟨hcl, hme, ham, hts⟩
  exact ⟨hstr, fun h => hstr (utf8Encode_injective _ _ h)⟩

/-- C8 amended, at two events that differ only in the amount, 12.5 and 12.25. -/
theorem fingerprint_input_separates_witness :
    fingerprintInput ⟨"client_A", "sales", .fin 25 1, some "2024-01-01T00:00:00.000Z"⟩ ≠
      fingerprintInput ⟨"client_A", "sales", .fin 49 2, some "2024-01-01T00:00:00.000Z"⟩ ∧
    utf8Encode
        (fingerprintInput ⟨"client_A", "sales", .fin 25 1, some "2024-01-01T00:00:00.000Z"⟩) ≠
      utf8Encode
        (fingerprintInput ⟨"client_A", "sales", .fin 49 2, some "2024-01-01T00:00:00.000Z"⟩) :=
  fingerprint_input_separates
    ⟨"client_A", "sales", .fin 25 1, some "2024-01-01T00:00:00.000Z"⟩
    ⟨"client_A", "sales", .fin 49 2, some "2024-01-01T00:00:00.000Z"⟩
    (by decide) (by decide) (by decide) (by decide) (by decide) (by decide)
    (by decide) (by decide) (by decide)

/-- C9: for every canonical event, `fingerprint` returns the hex-encoded SHA-256 digest of
the UTF-8 encoding of the tuple `(clientId, metric, amount, timestamp)` joined with `|`
(`specFingerprint`), so that events with the same tuple have the same fingerprint.  The
digest is that of FIPS 180-4: the scenario event, joined as
`client_A|sales|1200|2024-01-01T00:00:00.000Z`, has its known digest. -/
theorem fingerprint_is_sha256_of_joined_tuple (event : CanonicalEvent) :
    fingerprint event =
      specFingerprint event.client_id event.metric event.amount event.timestamp ∧
    (∀ other : CanonicalEvent,
      (other.client_id, other.metric, other.amount, other.timestamp) =
        (event.client_id, event.metric, event.amount, event.timestamp) →
      fingerprint other = fingerprint event) ∧
    fingerprintInput ⟨"client_A", "sales", .fin 1200 0, some "2024-01-01T00:00:00.000Z"⟩ =
      "client_A|sales|1200|2024-01-01T00:00:00.000Z" ∧
    fingerprint ⟨"client_A", "sales", .fin 1200 0, some "2024-01-01T00:00:00.000Z"⟩ =
      "b770e2330c66d2a15b7a883d34f27b52ec0dce39e18f94bea9cdc2b0e8048610" ∧
    sha256Hex (utf8Encode "abc") =
      "ba7816bf8f01cfea414140de5dae2223b00361a396177a9cb410ff61f20015ad" := by
  refine ⟨?_, ?_, by decide, by decide!, by decide!⟩
  · rfl
  · intro other h
    simp only [Prod.mk.injEq] at h
    obtain ⟨h1, h2, h3, h4⟩ := h
    cases other; cases event
    simp only at h1 h2 h3 h4
    subst h1 h2 h3 h4
    rfl

/-- C9 at the scenario event and itself rebuilt from its fields. -/
theorem fingerprint_is_sha256_of_joined_tuple_witness :
    fingerprint ⟨"client_A", "sales", .fin 1200 0, some "2024-01-01T00:00:00.000Z"⟩ =
      fingerprint (normalizeEvent referenceEngine scenarioRaw) :=
  (fingerprint_is_sha256_of_joined_tuple (normalizeEvent referenceEngine scenarioRaw)).2.1
    ⟨"client_A", "sales", .fin 1200 0, some "2024-01-01T00:00:00.000Z"⟩ (by decide)

/-! ## The aggregate report: claim C10 -/

theorem sumInt64_eq : ∀ (vs : List Int) (acc t : Int), sumInt64 acc vs = some t → t = acc + vs.sum := by
  intro vs
  induction vs with
  | nil =>
    intro acc t h
    simp only [sumInt64, Option.some.injEq] at h
    simp [h]
  | cons v rest ih =>
    intro acc t h
    simp only [sumInt64, addInt64] at h
    split at h
    · rename_i s hs
      split at hs
      · simp only [Option.some.injEq] at hs
        have := ih _ _ h
        rw [this, ← hs, List.sum_cons]
        ring
      · cases hs
    · cases h

theorem filter_ne_null_of_int (cells : List SqlNum) (hint : ∀ x ∈ cells, x.isInt = true) :
    cells.filter (fun v => v ≠ .null) = cells := by
  rw [List.filter_eq_self]
  intro x hx
  have := hint x hx
  cases x <;> simp_all [SqlNum.isInt]

theorem allInts_of_int (cells : List SqlNum) (hint : ∀ x ∈ cells, x.isInt = true) :
    allInts cells = some (cells.map SqlNum.toInt) := by
  induction cells with
  | nil => rfl
  | cons x rest ih =>
    have hx := hint x (List.mem_cons_self _ _)
    have hrest := ih (fun y hy => hint y (List.mem_cons_of_mem _ hy))
    cases x with
    | int v => simp [allInts, hrest, SqlNum.toInt]
    | null => simp [SqlNum.isInt] at hx
    | real r => simp [SqlNum.isInt] at hx

/-- The `SUM` of integers whose running sum stays in range is their sum. -/
theorem sqlSum_ints (eng : Engine) (cells : List SqlNum) (hne : cells ≠ [])
    (hint : ∀ x ∈ cells, x.isInt = true)
    (hfit : (sumInt64 0 (cells.map SqlNum.toInt)).isSome = true) :
    sqlSum eng cells = .ok (.int (cells.map SqlNum.toInt).sum) := by
  unfold sqlSum
  simp only [filter_ne_null_of_int cells hint, if_neg hne, allInts_of_int cells hint]
  obtain ⟨t, ht⟩ := Option.isSome_iff_exists.mp hfit
  have := sumInt64_eq _ _ _ ht
  simp only [ht, this, zero_add]

theorem groupRows_ok (eng : Engine) (rows : List NormalizedEvent)
    (hint : ∀ r ∈ rows, r.amount.isInt = true)
    (hfit : ∀ r ∈ rows, (sumInt64 0 (clientAmounts rows r.client_id)).isSome = true) :
    ∀ keys : List String, (∀ c ∈ keys, ∃ r ∈ rows, r.client_id = c) →
      groupRows eng rows keys = .ok (keys.map (fun c =>
        ⟨c, (rows.filter (fun r => r.client_id = c)).length, .int (clientAmounts rows c).sum⟩)) := by
  intro keys
  induction keys with
  | nil => intro _; rfl
  | cons c cs ih =>
    intro hkeys
    obtain ⟨r, hr, hrc⟩ := hkeys c (List.mem_cons_self _ _)
    have hsum : sqlSum eng ((rows.filter (fun r => r.client_id = c)).map (fun r => r.amount)) =
        .ok (.int (clientAmounts rows c).sum) := by
      have hmap : ((rows.filter (fun r => r.client_id = c)).map (fun r => r.amount)).map
          SqlNum.toInt = clientAmounts rows c := by
        simp [clientAmounts, List.map_map, Function.comp_def]
      rw [← hmap]
      apply sqlSum_ints
      · intro hnil
        have hmem : r ∈ rows.filter (fun r => r.client_id = c) := by
          rw [List.mem_filter]; exact ⟨hr, by simpa using hrc⟩
        have : r.amount ∈ (rows.filter (fun r => r.client_id = c)).map (fun r => r.amount) :=
          List.mem_map_of_mem _ hmem
        rw [hnil] at this
        cases this
      · intro x hx
        obtain ⟨y, hy, hyx⟩ := List.mem_map.mp hx
        rw [← hyx]
        exact hint y (List.mem_filter.mp hy).1
      · rw [hmap, ← hrc]
        exact hfit r hr
    simp only [groupRows, hsum, ih (fun c' hc' => hkeys c' (List.mem_cons_of_mem _ hc')),
      List.map_cons]

theorem selectRows_none (rows : List NormalizedEvent) : selectRows none none none rows = rows := by
  simp [selectRows]

/-- C10 as stated fails: after two events for `client_A` with amount `2 ^ 62` each, both
stored as 64-bit integers, `SUM(amount)` overflows and the query raises `integer
overflow`: the handler answers with that error and no row. -/
theorem aggregates_integer_overflow :
    overflowScenario.normalized_events.map (fun r => (r.client_id, r.metric, r.amount)) =
      [("client_A", "sales", .int 4611686018427387904),
       ("client_A", "refunds", .int 4611686018427387904)] ∧
    aggregates referenceEngine none none none overflowScenario = .error "integer overflow" := by
  decide!

/-- C10 amended: for every normalized relation whose amounts are all integers and in
which, for each clientId present, the running 64-bit sum of its amounts in row order never
overflows, the aggregate with an empty filter returns rows with exactly one row per
distinct clientId present, whose count is the number of normalized rows with that clientId
and whose total is the sum of their amounts. -/
theorem aggregates_empty_filter (eng : Engine) (db : Store)
    (hint : ∀ r ∈ db.normalized_events, r.amount.isInt = true)
    (hfit : ∀ r ∈ db.normalized_events,
      (sumInt64 0 (clientAmounts db.normalized_events r.client_id)).isSome = true) :
    ∃ rows, aggregates eng none none none db = .ok rows ∧
      (rows.map (fun row => row.client_id)).Nodup ∧
      (∀ c, c ∈ rows.map (fun row => row.client_id) ↔
        ∃ r ∈ db.normalized_events, r.client_id = c) ∧
      ∀ row ∈ rows,
        row.count = (db.normalized_events.filter (fun r => r.client_id = row.client_id)).length ∧
        row.total = .int (clientAmounts db.normalized_events row.client_id).sum := by
  have hmemKeys : ∀ c, c ∈ ((db.normalized_events.map (fun r => r.client_id)).dedup).insertionSort
      (fun a b => textLe a b = true) ↔ ∃ r ∈ db.normalized_events, r.client_id = c := by
    intro c
    rw [(List.perm_insertionSort _ _).mem_iff, List.mem_dedup, List.mem_map]
  have hnd : (((db.normalized_events.map (fun r => r.client_id)).dedup).insertionSort
      (fun a b => textLe a b = true)).Nodup :=
    (List.perm_insertionSort _ _).nodup_iff.mpr (List.nodup_dedup _)
  have hrun := groupRows_ok eng db.normalized_events hint hfit _
    (fun c hc => (hmemKeys c).mp hc)
  refine ⟨(((db.normalized_events.map (fun r => r.client_id)).dedup).insertionSort
      (fun a b => textLe a b = true)).map (fun c =>
        ⟨c, (db.normalized_events.filter (fun r => r.client_id = c)).length,
          .int (clientAmounts db.normalized_events c).sum⟩), ?_, ?_, ?_, ?_⟩
  · unfold aggregates
    simp only [selectRows_none]
    exact hrun
  · simpa [List.map_map, Function.comp_def] using hnd
  · intro c
    rw [← hmemKeys c]
    simp [List.map_map, Function.comp_def]
  · intro row hrow
    obtain ⟨c, _, hc⟩ := List.mem_map.mp hrow
    rw [← hc]
    exact ⟨rfl, rfl⟩

/-- C10 amended, at the aggregate scenario: the relation holds integer amounts whose sums
fit, and the result is `{client_A, count 2, total 300}` and `{client_B, count 1, total 50}`. -/
theorem aggregates_empty_filter_witness :
    (∀ r ∈ aggregateScenario.normalized_events, r.amount.isInt = true) ∧
    (∀ r ∈ aggregateScenario.normalized_events,
      (sumInt64 0 (clientAmounts aggregateScenario.normalized_events r.client_id)).isSome = true) ∧
    aggregates referenceEngine none none none aggregateScenario =
      .ok [⟨"client_A", 2, .int 300⟩, ⟨"client_B", 1, .int 50⟩] ∧
    ∃ rows, aggregates referenceEngine none none none aggregateScenario = .ok rows ∧
      (rows.map (fun row => row.client_id)).Nodup ∧
      (∀ c, c ∈ rows.map (fun row => row.client_id) ↔
        ∃ r ∈ aggregateScenario.normalized_events, r.client_id = c) ∧
      ∀ row ∈ rows,
        row.count = (aggregateScenario.normalized_events.filter
          (fun r => r.client_id = row.client_id)).length ∧
        row.total = .int (clientAmounts aggregateScenario.normalized_events row.client_id).sum :=
  ⟨by decide!, by decide!, by decide!,
   aggregates_empty_filter referenceEngine aggregateScenario (by decide!) (by decide!)⟩

end FaultTolerance
